import Mathlib

/-!
RateMonitor: a verification development for `RateMonitor.hpp`

The header declares two classes.  `Counter` holds three `double` fields
(`runningTotal`, `measureTotal`, `ratePerSecond`) and five member functions;
`RateMonitor` holds a `std::vector<Counter*>` and drives the counters.

Modelling conventions

* `double` is modelled by `Dbl`: the IEEE-754 special values (NaN, the two
  infinities, negative zero) together with rational numbers for the finite
  values (`Dbl.fin 0` is positive zero).  The arithmetic is given twice.
  `Dbl.add`, `Dbl.div` and `Dbl.ofInt` follow IEEE-754 on the special values
  and are exact on finite operands: they do not round, overflow or underflow.
  `Dbl.add64`, `Dbl.div64` and `Dbl.ofInt64` make the same case analysis and
  round the exact result to binary64 (`Dbl.round64`: round to nearest, ties to
  even, overflow to an infinity, underflow to a zero).  `Counter.increment`
  and `Counter.processRate` use the exact operations, `Counter.increment64`
  and `Counter.processRate64` the rounded ones; `reset` and the readers do no
  arithmetic.  The sampling pass is given twice in the same way
  (`RateMonitor.samplingPass`, `RateMonitor.samplingPass64`).
* The rounded operations are used wherever a statement depends on the value
  an addition or a division produces: the rate law, the accumulation of
  increments, the rates after a sampling tick and the concurrent
  increments.  The exact operations are used
  for conservation across ticks, which is a statement in exact arithmetic,
  and for statements that involve only special values, zeros, values that
  are exact in binary64, the order of two values, or no arithmetic at all.
* `int64_t` is modelled by `Int`; the only use of the period is its
  conversion to `double`, so no machine-integer arithmetic takes place.
* `pthread_mutex_lock` / `pthread_mutex_unlock` bracket every member function
  body of `Counter`.  The model is sequential: a member function is one atomic
  state transformer and the lock itself is not part of the state.  The one
  exception is the section on concurrent increments, where the lock is part
  of the state and `increment` is split into its lock, load, store and unlock
  steps, interleaved between threads.
* The sampling thread reads a clock and sleeps.  Time enters the model only
  through the sequence of clock readings, which is a parameter.
* A `Counter*` is an address (`Nat`); the counters live in a heap
  `Nat → Counter`.
-/

/-! ## The model of `double` -/

/-- Values of a `double`: NaN, plus and minus infinity, negative zero, and the
finite values as exact rationals (`fin 0` is positive zero). -/
inductive Dbl where
  | nan : Dbl
  | pinf : Dbl
  | ninf : Dbl
  | nzero : Dbl
  | fin (q : ℚ) : Dbl
deriving DecidableEq

namespace Dbl

/-- The sign bit of a non-NaN value (`true` means negative). -/
def signBit : Dbl → Bool
  | nan => false
  | pinf => false
  | ninf => true
  | nzero => true
  | fin q => decide (q < 0)

/-- Whether the value is NaN. -/
def isNaN : Dbl → Bool
  | nan => true
  | _ => false

/-- Whether the value is one of the two infinities. -/
def isInf : Dbl → Bool
  | pinf => true
  | ninf => true
  | _ => false

/-- Whether the value is positive or negative zero. -/
def isZero : Dbl → Bool
  | nzero => true
  | fin q => decide (q = 0)
  | _ => false

/-- Whether the value is finite (`std::isfinite`): neither NaN nor infinite. -/
def isFinite : Dbl → Bool
  | nzero => true
  | fin _ => true
  | _ => false

/-- The rational value of a finite `double`; `0` for both zeros.  On NaN and
the infinities the result is `0` and carries no meaning. -/
def toRat : Dbl → ℚ
  | fin q => q
  | _ => 0

/-- The infinity with the given sign bit. -/
def signedInf (neg : Bool) : Dbl :=
  if neg then ninf else pinf

/-- The zero with the given sign bit. -/
def signedZero (neg : Bool) : Dbl :=
  if neg then nzero else fin 0

/-- IEEE-754 addition without rounding: the sum of two finite operands is
their exact sum (`add64` is the rounded addition).
`(+∞) + (-∞)` is NaN; `(-0) + (-0)` is `-0`; every other sum that is zero is
`+0`. -/
def add : Dbl → Dbl → Dbl
  | nan, _ => nan
  | _, nan => nan
  | pinf, ninf => nan
  | ninf, pinf => nan
  | pinf, _ => pinf
  | _, pinf => pinf
  | ninf, _ => ninf
  | _, ninf => ninf
  | nzero, nzero => nzero
  | nzero, fin b => fin b
  | fin a, nzero => fin a
  | fin a, fin b => fin (a + b)

/-- IEEE-754 division without rounding: the quotient of two finite non-zero
operands is their exact quotient (`div64` is the rounded division).  `0/0` and
`∞/∞` are NaN, a non-zero value over a zero is an infinity, a finite value over an
infinity is a zero; the sign of a zero or infinite result is the exclusive or
of the sign bits of the operands. -/
def div (x y : Dbl) : Dbl :=
  if x.isNaN || y.isNaN then nan
  else if x.isInf then
    if y.isInf then nan else signedInf (xor x.signBit y.signBit)
  else if y.isInf then signedZero (xor x.signBit y.signBit)
  else if y.isZero then
    if x.isZero then nan else signedInf (xor x.signBit y.signBit)
  else if x.isZero then signedZero (xor x.signBit y.signBit)
  else fin (x.toRat / y.toRat)

/-- Conversion `(double)n` of a 64-bit signed integer, without rounding
(`ofInt64` is the rounded conversion; the two agree up to magnitude `2^53`). -/
def ofInt (n : Int) : Dbl :=
  fin (n : ℚ)

/-- The comparison `x == y` of two `double`s: NaN is equal to nothing, the two
zeros are equal to each other. -/
def eq (x y : Dbl) : Bool :=
  if x.isNaN || y.isNaN then false
  else if x.isZero && y.isZero then true
  else decide (x = y)

/-- The comparison `x <= y` of two `double`s; false when either is NaN. -/
def le (x y : Dbl) : Bool :=
  if x.isNaN || y.isNaN then false
  else if x = ninf || y = pinf then true
  else if x = pinf || y = ninf then false
  else decide (x.toRat ≤ y.toRat)

/-- The comparison `x < y` of two `double`s; false when either is NaN, and
false between the two zeros. -/
def lt (x y : Dbl) : Bool :=
  if x.isNaN || y.isNaN then false
  else if x = pinf || y = ninf then false
  else if x = ninf || y = pinf then true
  else decide (x.toRat < y.toRat)

/-- The sum `v1 + ... + vn` of a sequence of `double`s, added from the left
starting at `+0`. -/
def sum (vs : List Dbl) : Dbl :=
  vs.foldl add (fin 0)

/-! ### Binary64 rounding

The operations above are exact on finite operands.  The operations below
round as the hardware does: the exact result of an operation is rounded to
the nearest binary64 value, ties to the value with an even significand,
overflowing to an infinity and underflowing to a zero. -/

/-- The integer nearest to `x`, the even one of the two when `x` lies half way
between two integers. -/
def roundHalfEven (x : ℚ) : ℤ :=
  if x - ⌊x⌋ < 1 / 2 then ⌊x⌋
  else if 1 / 2 < x - ⌊x⌋ then ⌊x⌋ + 1
  else if ⌊x⌋ % 2 = 0 then ⌊x⌋
  else ⌊x⌋ + 1

/-- The binary exponent of the binade of a non-zero value: the `e` with
`2^e <= |q| < 2^(e+1)`, and `-1022` for the subnormal range below `2^(-1022)`. -/
def exponent64 (q : ℚ) : ℤ :=
  max (Int.log 2 |q|) (-1022)

/-- The spacing of the binary64 values in the binade of `q`: a significand has
53 bits, so the spacing is `2^(e-52)`. -/
def ulp64 (q : ℚ) : ℚ :=
  (2 : ℚ) ^ (exponent64 q - 52)

/-- Rounding of an exact result to binary64, round to nearest, ties to even.
The magnitude is rounded to a multiple of the spacing of its binade; a result
of magnitude `2^1024` or more is an infinity, a result that rounds to nothing
is a zero, both with the sign of `q`.  An exact zero is `+0`. -/
def round64 (q : ℚ) : Dbl :=
  if q = 0 then fin 0
  else if (2 : ℚ) ^ (1024 : ℕ) ≤ (roundHalfEven (|q| / ulp64 q) : ℚ) * ulp64 q then
    signedInf (decide (q < 0))
  else if roundHalfEven (|q| / ulp64 q) = 0 then signedZero (decide (q < 0))
  else if q < 0 then fin (-((roundHalfEven (|q| / ulp64 q) : ℚ) * ulp64 q))
  else fin ((roundHalfEven (|q| / ulp64 q) : ℚ) * ulp64 q)

/-- Whether a rational is a binary64 value: rounding leaves it as it is. -/
def exact64 (q : ℚ) : Prop :=
  round64 q = fin q

/-- Binary64 addition `x + y`, round to nearest.  The special values are
treated as in `add`; the sum of two finite values is their exact sum, rounded
(an exact sum of zero is `+0`, except that `(-0) + (-0)` is `-0`). -/
def add64 : Dbl → Dbl → Dbl
  | nan, _ => nan
  | _, nan => nan
  | pinf, ninf => nan
  | ninf, pinf => nan
  | pinf, _ => pinf
  | _, pinf => pinf
  | ninf, _ => ninf
  | _, ninf => ninf
  | nzero, nzero => nzero
  | nzero, fin b => round64 b
  | fin a, nzero => round64 a
  | fin a, fin b => round64 (a + b)

/-- Binary64 division `x / y`, round to nearest.  The special values and the
zeros are treated as in `div`; the quotient of two finite non-zero values is
their exact quotient, rounded. -/
def div64 (x y : Dbl) : Dbl :=
  if x.isNaN || y.isNaN then nan
  else if x.isInf then
    if y.isInf then nan else signedInf (xor x.signBit y.signBit)
  else if y.isInf then signedZero (xor x.signBit y.signBit)
  else if y.isZero then
    if x.isZero then nan else signedInf (xor x.signBit y.signBit)
  else if x.isZero then signedZero (xor x.signBit y.signBit)
  else round64 (x.toRat / y.toRat)

/-- Binary64 conversion `(double)n` of a 64-bit signed integer: the integer,
rounded. -/
def ofInt64 (n : Int) : Dbl :=
  round64 (n : ℚ)

/-- The binary64 sum of a sequence of `double`s, added from the left starting
at `+0`, every addition rounded. -/
def sum64 (vs : List Dbl) : Dbl :=
  vs.foldl add64 (fin 0)

end Dbl

/-! ## `class Counter` -/

/-- The data members of `class Counter` (lines 58-62), with their default
member initialisers `= 0`. -/
structure Counter where
  runningTotal : Dbl := Dbl.fin 0
  measureTotal : Dbl := Dbl.fin 0
  ratePerSecond : Dbl := Dbl.fin 0
deriving DecidableEq

namespace Counter

/-- A freshly constructed counter: all three members are `0`. -/
def fresh : Counter := {}

/-- `void Counter::increment(double value)` (lines 84-90), with exact
additions. -/
def increment (this : Counter) (value : Dbl) : Counter :=
  { this with
    runningTotal := Dbl.add this.runningTotal value
    measureTotal := Dbl.add this.measureTotal value }

/-- `void Counter::reset(void)` (lines 92-99). -/
def reset (this : Counter) : Counter :=
  { this with
    runningTotal := Dbl.fin 0
    measureTotal := Dbl.fin 0
    ratePerSecond := Dbl.fin 0 }

/-- `double Counter::getRatePerSecond(void)` (lines 101-108). -/
def getRatePerSecond (this : Counter) : Dbl :=
  this.ratePerSecond

/-- `double Counter::getRunningTotal(void)` (lines 110-117). -/
def getRunningTotal (this : Counter) : Dbl :=
  this.runningTotal

/-- The local `timePeriodSeconds` of `Counter::processRate` (line 123):
`(double)periodMicroSeconds / 1000000.0`. -/
def timePeriodSeconds (periodMicroSeconds : Int) : Dbl :=
  Dbl.div (Dbl.ofInt periodMicroSeconds) (Dbl.fin 1000000)

/-- `void Counter::processRate(int64_t periodMicroSeconds)` (lines 120-128),
with exact divisions. -/
def processRate (this : Counter) (periodMicroSeconds : Int) : Counter :=
  { this with
    ratePerSecond := Dbl.div this.measureTotal (timePeriodSeconds periodMicroSeconds)
    measureTotal := Dbl.fin 0 }

/-! ### The member functions in binary64

`reset` and the two readers do no arithmetic.  `increment` and `processRate`
are given a second time, with the rounded operations in place of the exact
ones. -/

/-- `void Counter::increment(double value)` (lines 84-90), in binary64. -/
def increment64 (this : Counter) (value : Dbl) : Counter :=
  { this with
    runningTotal := Dbl.add64 this.runningTotal value
    measureTotal := Dbl.add64 this.measureTotal value }

/-- The local `timePeriodSeconds` of `Counter::processRate` (line 123), in
binary64: `(double)periodMicroSeconds / 1000000.0`. -/
def timePeriodSeconds64 (periodMicroSeconds : Int) : Dbl :=
  Dbl.div64 (Dbl.ofInt64 periodMicroSeconds) (Dbl.fin 1000000)

/-- `void Counter::processRate(int64_t periodMicroSeconds)` (lines 120-128),
in binary64. -/
def processRate64 (this : Counter) (periodMicroSeconds : Int) : Counter :=
  { this with
    ratePerSecond := Dbl.div64 this.measureTotal (timePeriodSeconds64 periodMicroSeconds)
    measureTotal := Dbl.fin 0 }

end Counter

/-! ## Sequences of member-function calls -/

/-- One call of a member function of `Counter`, with its argument. -/
inductive CounterCall where
  | increment (value : Dbl) : CounterCall
  | reset : CounterCall
  | getRatePerSecond : CounterCall
  | getRunningTotal : CounterCall
  | processRate (periodMicroSeconds : Int) : CounterCall
deriving DecidableEq

namespace Counter

/-- The state of a counter after one member-function call.  The two readers
copy a member into a local and return it; they assign to no member. -/
def call (this : Counter) : CounterCall → Counter
  | .increment value => this.increment value
  | .reset => this.reset
  | .getRatePerSecond => this
  | .getRunningTotal => this
  | .processRate periodMicroSeconds => this.processRate periodMicroSeconds

/-- The state of a counter after a sequence of calls, made one after the
other. -/
def run (this : Counter) (calls : List CounterCall) : Counter :=
  calls.foldl call this

/-- The state of a counter after one member-function call, in binary64. -/
def call64 (this : Counter) : CounterCall → Counter
  | .increment value => this.increment64 value
  | .reset => this.reset
  | .getRatePerSecond => this
  | .getRunningTotal => this
  | .processRate periodMicroSeconds => this.processRate64 periodMicroSeconds

/-- The state of a counter after a sequence of calls, in binary64. -/
def run64 (this : Counter) (calls : List CounterCall) : Counter :=
  calls.foldl call64 this

/-- The sampling record of a sequence of calls: for every `processRate` call,
in order, the period it was given and the rate it stored. -/
def ticks (this : Counter) : List CounterCall → List (Int × Dbl)
  | [] => []
  | .processRate p :: rest =>
      (p, (this.processRate p).ratePerSecond) :: ticks (this.processRate p) rest
  | .increment value :: rest => ticks (this.increment value) rest
  | .reset :: rest => ticks this.reset rest
  | .getRatePerSecond :: rest => ticks this rest
  | .getRunningTotal :: rest => ticks this rest

end Counter

/-- The values passed to `increment` in a sequence of calls, in order. -/
def incrementValues : List CounterCall → List Dbl
  | [] => []
  | .increment value :: rest => value :: incrementValues rest
  | _ :: rest => incrementValues rest

/-- The exact partial sums `a + q1`, `a + q1 + q2`, ... of a sequence of
rationals added to `a`. -/
def runningSums (a : ℚ) : List ℚ → List ℚ
  | [] => []
  | q :: qs => (a + q) :: runningSums (a + q) qs

/-- The amount a sampling record accounts for, in exact arithmetic: the sum
over its entries of rate times period in seconds. -/
def accounted : List (Int × Dbl) → ℚ
  | [] => 0
  | (p, rate) :: rest => rate.toRat * ((p : ℚ) / 1000000) + accounted rest

/-- A call of the conservation law: an `increment` by a finite value, a
`processRate` with a positive period, or a reader; not `reset`. -/
def CounterCall.conserving : CounterCall → Bool
  | .increment value => value.isFinite
  | .processRate p => decide (0 < p)
  | .reset => false
  | .getRatePerSecond => true
  | .getRunningTotal => true

/-- A call that is not an `increment` by a negative value or by NaN: an
`increment` whose value satisfies `0 <= value`, or any other call. -/
def CounterCall.nonnegative : CounterCall → Bool
  | .increment value => Dbl.le (Dbl.fin 0) value
  | _ => true

/-! ## `class RateMonitor` -/

/-- The data members of `class RateMonitor` (lines 80-81).  `counters` is the
`std::vector<Counter*>`, a pointer being an address; the `pthread_t thread`
handle is written by `start` only and is left out. -/
structure RateMonitor where
  counters : List Nat := []
deriving DecidableEq

/-- A monitor object together with the memory its pointers refer to.
`heap` maps an address to the `Counter` stored there.  `trace` is ghost
state with no counterpart in the source: the member-function calls made on
counters through a pointer, in program order, so that the order of calls is
observable. -/
structure World where
  monitor : RateMonitor
  heap : Nat → Counter
  trace : List (Nat × CounterCall)

namespace World

/-- The call `counter->f(args)` on the counter stored at address `counter`. -/
def callAt (w : World) (counter : Nat) (op : CounterCall) : World :=
  { w with
    heap := Function.update w.heap counter ((w.heap counter).call op)
    trace := w.trace ++ [(counter, op)] }

end World

namespace RateMonitor

/-- `void RateMonitor::registerCounter(Counter &counter)` (lines 131-135).
`pthread_mutex_init` writes only the lock of the counter, which is not part of the
sequential state; `push_back` appends the address. -/
def registerCounter (w : World) (counter : Nat) : World :=
  { w with monitor := { counters := w.monitor.counters ++ [counter] } }

/-- The `for` loop of `RateMonitor::resetCounters` (lines 144-147), started at
index `i`.  The first argument bounds the number of iterations; the test
`i < this->counters.size()` is evaluated afresh at every iteration, and
`counters.at(i)` is in bounds whenever the body runs. -/
def resetCountersLoop : Nat → Nat → World → World
  | 0, _, w => w
  | fuel + 1, i, w =>
      if h : i < w.monitor.counters.length then
        resetCountersLoop fuel (i + 1) (w.callAt (w.monitor.counters.get ⟨i, h⟩) .reset)
      else w

/-- `void RateMonitor::resetCounters(void)` (lines 142-148).  The loop makes at
most `counters.size()` iterations. -/
def resetCounters (w : World) : World :=
  resetCountersLoop w.monitor.counters.length 0 w

end RateMonitor


/-! ## The sampling loop `RateMonitor::rateMonitorFunction` -/

namespace RateMonitor

/-- The `for` loop of `rateMonitorFunction` (lines 163-166), started at index
`i`, with the value of the local `duration`.  As in `resetCountersLoop` the
first argument bounds the number of iterations and the test
`i < instance->counters.size()` is evaluated afresh at every iteration. -/
def processRateLoop (duration : Int) : Nat → Nat → World → World
  | 0, _, w => w
  | fuel + 1, i, w =>
      if h : i < w.monitor.counters.length then
        processRateLoop duration fuel (i + 1)
          (w.callAt (w.monitor.counters.get ⟨i, h⟩) (.processRate duration))
      else w

/-- One complete run of the `for` loop of lines 163-166: the sampling pass of
one tick.  The loop makes at most `counters.size()` iterations. -/
def samplingPass (w : World) (duration : Int) : World :=
  processRateLoop duration w.monitor.counters.length 0 w

end RateMonitor

/-- What the sampling thread does, in program order.  Ghost data with no
counterpart in the source: `now t` is a call of
`std::chrono::high_resolution_clock::now()` that returned the time point `t`,
`sleep n` is the call `sleep(n)`, and `pass d` is one run of the `for` loop of
lines 163-166 with `duration == d`. -/
inductive SamplerEvent where
  | now (reading : Int) : SamplerEvent
  | sleep (seconds : Nat) : SamplerEvent
  | pass (duration : Int) : SamplerEvent
deriving DecidableEq

/-- The state of the thread running `rateMonitorFunction`: the memory it works
on, its locals `endTime` and `startTime` (time points, counted in ticks of the
clock), the number of clock readings it has taken so far, and the ghost record
of its events. -/
structure SamplerState where
  world : World
  endTime : Int
  startTime : Int
  reads : Nat
  events : List SamplerEvent

/-- The `duration` values of the passes in a record of events, in order. -/
def passDurations : List SamplerEvent → List Int
  | [] => []
  | .pass d :: rest => d :: passDurations rest
  | _ :: rest => passDurations rest

namespace RateMonitor

/-- The conversion
`std::chrono::duration_cast<std::chrono::microseconds>(endTime - startTime).count()`
of line 160.  The tick period of `high_resolution_clock` is fixed by the
standard library, not by the header; it is the parameter
`ticksPerMicrosecond` (`1000` for a nanosecond clock).  The cast divides
integers, truncating towards zero. -/
def durationMicroseconds (ticksPerMicrosecond endTime startTime : Int) : Int :=
  Int.tdiv (endTime - startTime) ticksPerMicrosecond

/-- Lines 153-156 of `rateMonitorFunction`: the two initial readings of the
clock and the first `sleep(1)`.  `clock n` is the time point returned by the
`n`-th call of `now()` made by this thread, counted from `0`. -/
def rateMonitorEntry (clock : Nat → Int) (w : World) : SamplerState :=
  { world := w
    endTime := clock 0
    startTime := clock 1
    reads := 2
    events := [.now (clock 0), .now (clock 1), .sleep 1] }

/-- One iteration of the `while(1)` loop of `rateMonitorFunction` (lines
159-167). -/
def rateMonitorIteration (ticksPerMicrosecond : Int) (clock : Nat → Int)
    (s : SamplerState) : SamplerState :=
  let endTime := clock s.reads
  let duration := durationMicroseconds ticksPerMicrosecond endTime s.startTime
  let startTime := clock (s.reads + 1)
  { world := samplingPass s.world duration
    endTime := endTime
    startTime := startTime
    reads := s.reads + 2
    events := s.events ++ [.now endTime, .now startTime, .pass duration, .sleep 1] }

/-- `void* RateMonitor::rateMonitorFunction(void* self)` (lines 151-169).  The
loop never exits; the result is the state of the thread after the given number
of iterations of the loop. -/
def rateMonitorFunction (ticksPerMicrosecond : Int) (clock : Nat → Int) (w : World) :
    Nat → SamplerState
  | 0 => rateMonitorEntry clock w
  | n + 1 =>
      rateMonitorIteration ticksPerMicrosecond clock
        (rateMonitorFunction ticksPerMicrosecond clock w n)

end RateMonitor

/-! ## The sampling pass in binary64

The call through a pointer, the `for` loop of the sampling pass and one
iteration of the sampling loop, given a second time with the binary64 member
functions in place of the exact ones. -/

namespace World

/-- The call `counter->f(args)` on the counter stored at address `counter`,
the member function computing in binary64. -/
def callAt64 (w : World) (counter : Nat) (op : CounterCall) : World :=
  { w with
    heap := Function.update w.heap counter ((w.heap counter).call64 op)
    trace := w.trace ++ [(counter, op)] }

end World

namespace RateMonitor

/-- The `for` loop of `rateMonitorFunction` (lines 163-166), started at index
`i`, with the value of the local `duration`, the calls computing in
binary64. -/
def processRateLoop64 (duration : Int) : Nat → Nat → World → World
  | 0, _, w => w
  | fuel + 1, i, w =>
      if h : i < w.monitor.counters.length then
        processRateLoop64 duration fuel (i + 1)
          (w.callAt64 (w.monitor.counters.get ⟨i, h⟩) (.processRate duration))
      else w

/-- One complete run of the `for` loop of lines 163-166, the calls computing in
binary64. -/
def samplingPass64 (w : World) (duration : Int) : World :=
  processRateLoop64 duration w.monitor.counters.length 0 w

/-- One iteration of the `while(1)` loop of `rateMonitorFunction` (lines
159-167), the calls computing in binary64. -/
def rateMonitorIteration64 (ticksPerMicrosecond : Int) (clock : Nat → Int)
    (s : SamplerState) : SamplerState :=
  let endTime := clock s.reads
  let duration := durationMicroseconds ticksPerMicrosecond endTime s.startTime
  let startTime := clock (s.reads + 1)
  { world := samplingPass64 s.world duration
    endTime := endTime
    startTime := startTime
    reads := s.reads + 2
    events := s.events ++ [.now endTime, .now startTime, .pass duration, .sleep 1] }

end RateMonitor

/-! ## Threads calling `Counter::increment` concurrently

A small-step model of several threads that call `increment` on one counter.
The lock is part of the state here.  A step is one action of one thread;
an interleaving is a list of thread numbers, saying which thread moves next. -/

/-- The program points of a thread inside `Counter::increment` (lines 86-89).
`lock` is the point before `pthread_mutex_lock`, also the point between two
calls; each `+=` is a load of the member followed by a store; `unlock` is the
point before `pthread_mutex_unlock`. -/
inductive IncrementPoint where
  | lock : IncrementPoint
  | loadRunning : IncrementPoint
  | storeRunning : IncrementPoint
  | loadMeasure : IncrementPoint
  | storeMeasure : IncrementPoint
  | unlock : IncrementPoint
deriving DecidableEq

/-- A thread that calls `increment` in a loop: the number of calls it has
completed, its program point, and the register holding the member it has
loaded. -/
structure IncrementThread where
  calls : Nat := 0
  point : IncrementPoint := .lock
  register : Dbl := Dbl.fin 0
deriving DecidableEq

/-- One counter shared by several threads.  `incrementLock` is the
`pthread_mutex_t` of the counter: `none` when it is unlocked, `some t` when
thread `t` holds it. -/
structure Concurrent where
  counter : Counter
  incrementLock : Option Nat
  threads : List IncrementThread

namespace Concurrent

/-- The start: a fresh counter whose lock has been initialised by
`pthread_mutex_init` (line 133) and is unlocked, and `n` threads about to make
their first call. -/
def init (n : Nat) : Concurrent :=
  { counter := Counter.fresh
    incrementLock := none
    threads := List.replicate n {} }

/-- One step of thread `t`, where every thread makes `k` calls
`increment(value)`.  A thread that has made its `k` calls does nothing; a
thread at `pthread_mutex_lock` proceeds only when the lock is free and
otherwise stays where it is.  The two additions are binary64 additions. -/
def step (k : Nat) (value : Dbl) (s : Concurrent) (t : Nat) : Concurrent :=
  match s.threads[t]? with
  | none => s
  | some th =>
    if k ≤ th.calls then s
    else
      match th.point with
      | .lock =>
        match s.incrementLock with
        | none =>
          { s with
            incrementLock := some t
            threads := s.threads.set t { th with point := .loadRunning } }
        | some _ => s
      | .loadRunning =>
        { s with
          threads := s.threads.set t
            { th with register := s.counter.runningTotal, point := .storeRunning } }
      | .storeRunning =>
        { s with
          counter := { s.counter with runningTotal := Dbl.add64 th.register value }
          threads := s.threads.set t { th with point := .loadMeasure } }
      | .loadMeasure =>
        { s with
          threads := s.threads.set t
            { th with register := s.counter.measureTotal, point := .storeMeasure } }
      | .storeMeasure =>
        { s with
          counter := { s.counter with measureTotal := Dbl.add64 th.register value }
          threads := s.threads.set t { th with point := .unlock } }
      | .unlock =>
        { s with
          incrementLock := none
          threads := s.threads.set t { th with point := .lock, calls := th.calls + 1 } }

/-- The state after an interleaving: the steps of the listed threads, one
after the other. -/
def run (k : Nat) (value : Dbl) (s : Concurrent) (schedule : List Nat) : Concurrent :=
  schedule.foldl (step k value) s

/-- Whether every thread has completed its `k` calls. -/
def finished (k : Nat) (s : Concurrent) : Bool :=
  s.threads.all (fun th => decide (k ≤ th.calls))

/-- The number of steps a thread still has to make: six per call not yet
begun, less the steps already made in the call in progress. -/
def stepsLeft (k : Nat) (th : IncrementThread) : Nat :=
  6 * (k - th.calls) -
    (match th.point with
     | .lock => 0
     | .loadRunning => 1
     | .storeRunning => 2
     | .loadMeasure => 3
     | .storeMeasure => 4
     | .unlock => 5)

/-- The number of additions to `runningTotal` a thread has made: one per
completed call, and one more when the call in progress is past its store to
`runningTotal`. -/
def added (th : IncrementThread) : Nat :=
  th.calls +
    (match th.point with
     | .loadMeasure => 1
     | .storeMeasure => 1
     | .unlock => 1
     | _ => 0)

/-- The invariant of the interleavings of threads that each make `k` calls
`increment(1)` on a counter that was fresh at the start:
no thread has made more than `k` calls; `runningTotal` is the number of
additions made so far, or `2^53` once that many have been made (binary64
absorbs the addition of `1` to `2^53`); a thread that is inside `increment`
holds the lock and has not completed its calls; the holder of the lock is a
thread inside `increment`; and a thread about to store to `runningTotal` has
the current `runningTotal` in its register. -/
def Inv (k : Nat) (s : Concurrent) : Prop :=
  (∀ th ∈ s.threads, th.calls ≤ k)
  ∧ s.counter.runningTotal
      = Dbl.fin ((min ((s.threads.map added).sum) (2 ^ 53) : ℕ) : ℚ)
  ∧ (∀ (i : Nat) (th : IncrementThread), s.threads[i]? = some th →
      th.point ≠ IncrementPoint.lock → s.incrementLock = some i ∧ th.calls < k)
  ∧ (∀ i : Nat, s.incrementLock = some i →
      ∃ th : IncrementThread, s.threads[i]? = some th ∧ th.point ≠ IncrementPoint.lock)
  ∧ (∀ (i : Nat) (th : IncrementThread), s.threads[i]? = some th →
      th.point = IncrementPoint.storeRunning → th.register = s.counter.runningTotal)

/-- The number of steps all threads together still have to make. -/
def workLeft (k : Nat) (s : Concurrent) : Nat :=
  (s.threads.map (stepsLeft k)).sum

end Concurrent

/-! ## Concrete inputs

Inputs at which the general statements below are instantiated. -/

/-- A sequence of calls: two increments, a tick over two seconds, a read, one
more increment, a tick over one second, and a last increment left pending. -/
def sampleCalls : List CounterCall :=
  [.increment (Dbl.fin 10), .increment (Dbl.fin 5), .processRate 2000000, .getRunningTotal,
   .increment (Dbl.fin 3), .processRate 1000000, .increment (Dbl.fin 4)]

/-- A monitor whose list holds the addresses `7, 2, 7` (address `7` registered
twice), every address holding a counter with totals `5`, `3` and rate `1`, and
an empty trace. -/
def sampleWorld : World :=
  { monitor := { counters := [7, 2, 7] }
    heap := fun _ => Counter.mk (Dbl.fin 5) (Dbl.fin 3) (Dbl.fin 1)
    trace := [] }

/-- A monitor whose list holds the pairwise distinct addresses `7, 2, 5`, the
counter at address `p` having running total `50`, pending total `p` and rate
`1`, and an empty trace. -/
def sampleWorldDistinct : World :=
  { monitor := { counters := [7, 2, 5] }
    heap := fun p => Counter.mk (Dbl.fin 50) (Dbl.fin p) (Dbl.fin 1)
    trace := [] }

/-- A clock counting nanoseconds whose successive readings are `1000000999`
ticks apart. -/
def sampleClock (n : Nat) : Int :=
  1000000999 * n

/-- An interleaving of two threads that move in turn, thread `0` first; a
thread whose turn comes while the other holds the lock waits. -/
def sampleSchedule : List Nat :=
  [0, 1, 0, 1, 0, 1, 0, 1, 0, 1, 0, 1, 0, 1, 0, 1, 0, 1, 0, 1, 0, 1,
   0, 1, 0, 1, 0, 1, 0, 1, 0, 1, 0, 1, 0, 1, 0, 1, 0, 1, 0, 1, 0, 1]

/-! ## Arithmetic lemmas -/

namespace Dbl

theorem div_fin_of_pos (a b : ℚ) (hb : 0 < b) : div (fin a) (fin b) = fin (a / b) := by
  have hb0 : b ≠ 0 := ne_of_gt hb
  have hb1 : ¬ b < 0 := not_lt.mpr hb.le
  by_cases ha : a = 0
  · subst ha
    simp [div, isNaN, isInf, isZero, signBit, signedZero, hb0, hb1]
  · simp [div, isNaN, isInf, isZero, toRat, hb0, ha]

theorem div_zero_of_neg (b : ℚ) (hb : b < 0) : div (fin 0) (fin b) = nzero := by
  have hb0 : b ≠ 0 := ne_of_lt hb
  simp [div, isNaN, isInf, isZero, signBit, signedZero, hb0, hb]

theorem div_zero_zero : div (fin 0) (fin 0) = nan := by
  simp [div, isNaN, isInf, isZero]

end Dbl

namespace Counter

theorem timePeriodSeconds_eq (p : Int) : timePeriodSeconds p = Dbl.fin ((p : ℚ) / 1000000) := by
  unfold timePeriodSeconds Dbl.ofInt
  exact Dbl.div_fin_of_pos _ _ (by norm_num)

theorem timePeriodSeconds_pos (p : Int) (hp : 0 < p) : (0 : ℚ) < (p : ℚ) / 1000000 := by
  have : (0 : ℚ) < (p : ℚ) := by exact_mod_cast hp
  positivity

theorem timePeriodSeconds_neg (p : Int) (hp : p < 0) : (p : ℚ) / 1000000 < 0 := by
  have : (p : ℚ) < 0 := by exact_mod_cast hp
  exact div_neg_of_neg_of_pos this (by norm_num)

end Counter

/-! ## Lemmas on sequences of increments and calls -/

namespace Counter

theorem processRate_zero_pending (c : Counter) (hc : c.measureTotal = Dbl.fin 0) (p : Int) :
    (c.processRate p).ratePerSecond
      = if 0 < p then Dbl.fin 0 else if p = 0 then Dbl.nan else Dbl.nzero := by
  simp only [processRate, hc, timePeriodSeconds_eq]
  rcases lt_trichotomy p 0 with h | h | h
  · rw [Dbl.div_zero_of_neg _ (timePeriodSeconds_neg p h)]
    simp [not_lt.mpr h.le, ne_of_lt h]
  · subst h
    simp [Dbl.div_zero_zero]
  · rw [Dbl.div_fin_of_pos _ _ (timePeriodSeconds_pos p h)]
    simp [h]

end Counter

/-! ## Binary64 rounding lemmas -/

namespace Dbl

theorem roundHalfEven_intCast (k : ℤ) : roundHalfEven (k : ℚ) = k := by
  unfold roundHalfEven
  rw [Int.floor_intCast, sub_self, if_pos (by norm_num)]

theorem floor_le_roundHalfEven (x : ℚ) : ⌊x⌋ ≤ roundHalfEven x := by
  unfold roundHalfEven
  split_ifs <;> omega

theorem log_two_eq (r : ℚ) (e : ℤ) (h1 : (2 : ℚ) ^ e ≤ r) (h2 : r < (2 : ℚ) ^ (e + 1)) :
    Int.log 2 r = e := by
  have hr : 0 < r := lt_of_lt_of_le (zpow_pos (by norm_num) e) h1
  have ha : e ≤ Int.log 2 r :=
    (Int.zpow_le_iff_le_log (by norm_num) hr).mp (by exact_mod_cast h1)
  have hb : Int.log 2 r < e + 1 :=
    (Int.lt_zpow_iff_log_lt (by norm_num) hr).mp (by exact_mod_cast h2)
  omega

theorem ulp64_pos (q : ℚ) : 0 < ulp64 q :=
  zpow_pos (by norm_num) _

/-- A non-zero value that is a whole multiple of the spacing of its binade,
and below `2^1024`, is left as it is by rounding. -/
theorem round64_of_multiple (q : ℚ) (k : ℤ) (hq : q ≠ 0) (hk : |q| = (k : ℚ) * ulp64 q)
    (hmax : |q| < (2 : ℚ) ^ (1024 : ℕ)) : round64 q = fin q := by
  have hu := ulp64_pos q
  have hdiv : |q| / ulp64 q = (k : ℚ) := by
    rw [hk, mul_div_assoc, div_self (ne_of_gt hu), mul_one]
  have habs : 0 < |q| := abs_pos.mpr hq
  have hk0 : k ≠ 0 := by
    rintro rfl
    rw [Int.cast_zero, zero_mul] at hk
    exact (ne_of_gt habs) hk
  unfold round64
  rw [if_neg hq, hdiv, roundHalfEven_intCast, ← hk, if_neg (not_le.mpr hmax), if_neg hk0]
  by_cases hneg : q < 0
  · rw [if_pos hneg, abs_of_neg hneg, neg_neg]
  · rw [if_neg hneg, abs_of_nonneg (not_lt.mp hneg)]


theorem exponent64_eq_log (q : ℚ) (h : (2 : ℚ) ^ (-1022 : ℤ) ≤ |q|) :
    exponent64 q = Int.log 2 |q| := by
  have hq : 0 < |q| := lt_of_lt_of_le (zpow_pos (by norm_num) _) h
  have : (-1022 : ℤ) ≤ Int.log 2 |q| :=
    (Int.zpow_le_iff_le_log (by norm_num) hq).mp (by exact_mod_cast h)
  unfold exponent64
  exact max_eq_left this

/-- Every integer of magnitude at most `2^53` is a binary64 value. -/
theorem round64_intCast (n : ℤ) (h : |n| ≤ 2 ^ 53) : round64 (n : ℚ) = fin (n : ℚ) := by
  by_cases hn : n = 0
  · subst hn
    simp [round64]
  have hq : (n : ℚ) ≠ 0 := by exact_mod_cast hn
  have habs : |(n : ℚ)| = ((|n| : ℤ) : ℚ) := by simp
  have h1 : (1 : ℚ) ≤ |(n : ℚ)| := by
    rw [habs]
    have : (1 : ℤ) ≤ |n| := Int.one_le_abs hn
    exact_mod_cast this
  have hle : |(n : ℚ)| ≤ (2 : ℚ) ^ (53 : ℕ) := by
    rw [habs]
    exact_mod_cast h
  have hpos : (0 : ℚ) < |(n : ℚ)| := lt_of_lt_of_le one_pos h1
  have hL0 : (0 : ℤ) ≤ Int.log 2 |(n : ℚ)| :=
    (Int.zpow_le_iff_le_log (by norm_num) hpos).mp (by simpa using h1)
  have hL54 : Int.log 2 |(n : ℚ)| < 54 := by
    refine (Int.lt_zpow_iff_log_lt (by norm_num) hpos).mp ?_
    have : (2 : ℚ) ^ (53 : ℕ) < ((2 : ℕ) : ℚ) ^ (54 : ℤ) := by norm_num
    exact lt_of_le_of_lt hle this
  have hexp : exponent64 (n : ℚ) = Int.log 2 |(n : ℚ)| :=
    exponent64_eq_log _ (le_trans (by norm_num) h1)
  have hmax : |(n : ℚ)| < (2 : ℚ) ^ (1024 : ℕ) :=
    lt_of_le_of_lt hle (by norm_num)
  by_cases hL : Int.log 2 |(n : ℚ)| ≤ 52
  · refine round64_of_multiple _ (|n| * 2 ^ (52 - Int.log 2 |(n : ℚ)|).toNat) hq ?_ hmax
    have hnat : (((52 - Int.log 2 |(n : ℚ)|).toNat : ℕ) : ℤ) = 52 - Int.log 2 |(n : ℚ)| :=
      Int.toNat_of_nonneg (by omega)
    have hpow : ((2 : ℚ) ^ (52 - Int.log 2 |(n : ℚ)|).toNat)
        = (2 : ℚ) ^ (52 - Int.log 2 |(n : ℚ)|) := by
      rw [← zpow_natCast, hnat]
    unfold ulp64
    rw [hexp]
    push_cast
    rw [hpow, mul_assoc, ← zpow_add₀ (by norm_num : (2 : ℚ) ≠ 0)]
    simp
  · have hL53 : Int.log 2 |(n : ℚ)| = 53 := by omega
    have hge : (2 : ℚ) ^ (53 : ℕ) ≤ |(n : ℚ)| := by
      have := Int.zpow_log_le_self (b := 2) (r := |(n : ℚ)|) (by norm_num) hpos
      rw [hL53] at this
      have h53 : ((2 : ℕ) : ℚ) ^ (53 : ℤ) = (2 : ℚ) ^ (53 : ℕ) := by norm_num
      rwa [h53] at this
    have heq : |(n : ℚ)| = (2 : ℚ) ^ (53 : ℕ) := le_antisymm hle hge
    refine round64_of_multiple _ (2 ^ 52) hq ?_ hmax
    unfold ulp64
    rw [hexp, hL53, heq]
    norm_num

/-- Adding `1` to `2^53` is absorbed: `2^53 + 1` lies half way between the
binary64 values `2^53` and `2^53 + 2`, and `2^53` has the even significand. -/
theorem round64_absorb : round64 ((2 : ℚ) ^ (53 : ℕ) + 1) = fin ((2 : ℚ) ^ (53 : ℕ)) := by
  have hlog : Int.log 2 |(2 : ℚ) ^ (53 : ℕ) + 1| = 53 := by
    refine log_two_eq _ 53 ?_ ?_ <;> norm_num
  have hu : ulp64 ((2 : ℚ) ^ (53 : ℕ) + 1) = 2 := by
    unfold ulp64 exponent64
    rw [hlog]
    norm_num
  have hfloor : ⌊((2 : ℚ) ^ (53 : ℕ) + 1) / 2⌋ = 2 ^ 52 := by
    rw [Int.floor_eq_iff]
    constructor <;> norm_num
  have hr : roundHalfEven (((2 : ℚ) ^ (53 : ℕ) + 1) / 2) = 2 ^ 52 := by
    unfold roundHalfEven
    rw [hfloor]
    norm_num
  have habs : |(2 : ℚ) ^ (53 : ℕ) + 1| = (2 : ℚ) ^ (53 : ℕ) + 1 := abs_of_pos (by positivity)
  unfold round64
  rw [habs, hu, hr]
  norm_num

/-- A positive value in the normal range rounds to an infinity or to a finite
value that is at least the power of two at the bottom of its binade. -/
theorem round64_of_normal (q : ℚ) (h : (2 : ℚ) ^ (-1022 : ℤ) ≤ q) :
    round64 q = pinf ∨ ∃ r : ℚ, round64 q = fin r ∧ (2 : ℚ) ^ Int.log 2 q ≤ r := by
  have hq : 0 < q := lt_of_lt_of_le (zpow_pos (by norm_num) _) h
  have habs : |q| = q := abs_of_pos hq
  have hexp : exponent64 q = Int.log 2 q := by
    have := exponent64_eq_log q (by rw [habs]; exact h)
    rwa [habs] at this
  have hu : ulp64 q = (2 : ℚ) ^ (Int.log 2 q - 52) := by
    unfold ulp64
    rw [hexp]
  have hupos := ulp64_pos q
  have hlow : (2 : ℚ) ^ Int.log 2 q ≤ q := by
    simpa using Int.zpow_log_le_self (b := 2) (r := q) (by norm_num) hq
  have hmul : (2 : ℚ) ^ (52 : ℕ) * ulp64 q = (2 : ℚ) ^ Int.log 2 q := by
    rw [hu, ← zpow_natCast, ← zpow_add₀ (by norm_num : (2 : ℚ) ≠ 0)]
    congr 1
    push_cast
    ring
  have hcast : (((2 : ℤ) ^ 52 : ℤ) : ℚ) = (2 : ℚ) ^ (52 : ℕ) := by norm_num
  have hquot : (((2 : ℤ) ^ 52 : ℤ) : ℚ) ≤ q / ulp64 q := by
    rw [hcast, le_div_iff₀ hupos, hmul]
    exact hlow
  have hm : (2 : ℤ) ^ 52 ≤ roundHalfEven (q / ulp64 q) :=
    le_trans (Int.le_floor.mpr hquot) (floor_le_roundHalfEven _)
  have hm0 : roundHalfEven (q / ulp64 q) ≠ 0 := by
    intro h0
    rw [h0] at hm
    norm_num at hm
  have hr : (2 : ℚ) ^ Int.log 2 q ≤ (roundHalfEven (q / ulp64 q) : ℚ) * ulp64 q := by
    have h52 : ((2 : ℚ) ^ (52 : ℕ)) ≤ (roundHalfEven (q / ulp64 q) : ℚ) := by
      rw [← hcast]
      exact_mod_cast hm
    rw [← hmul]
    exact mul_le_mul_of_nonneg_right h52 hupos.le
  unfold round64
  rw [if_neg (ne_of_gt hq), habs]
  by_cases hover : (2 : ℚ) ^ (1024 : ℕ) ≤ (roundHalfEven (q / ulp64 q) : ℚ) * ulp64 q
  · left
    rw [if_pos hover]
    simp [signedInf, not_lt.mpr hq.le]
  · right
    rw [if_neg hover, if_neg hm0, if_neg (not_lt.mpr hq.le)]
    exact ⟨_, rfl, hr⟩


theorem round64_zero : round64 0 = fin 0 := by
  simp [round64]

theorem div64_fin_fin (a b : ℚ) (ha : a ≠ 0) (hb : b ≠ 0) :
    div64 (fin a) (fin b) = round64 (a / b) := by
  simp [div64, isNaN, isInf, isZero, toRat, ha, hb]

theorem div64_zero_fin (b : ℚ) (hb : 0 < b) : div64 (fin 0) (fin b) = fin 0 := by
  have hb0 : b ≠ 0 := ne_of_gt hb
  have hb1 : ¬ b < 0 := not_lt.mpr hb.le
  simp [div64, isNaN, isInf, isZero, signBit, signedZero, hb0, hb1]

theorem div64_zero_pinf : div64 (fin 0) pinf = fin 0 := by
  simp [div64, isNaN, isInf, signBit, signedZero]

theorem div64_pinf_fin (b : ℚ) (hb : 0 < b) : div64 pinf (fin b) = pinf := by
  have hb1 : ¬ b < 0 := not_lt.mpr hb.le
  simp [div64, isNaN, isInf, signBit, signedInf, hb1]

/-- A value of at least `2^(-1022)` rounds to an infinity or to a positive
finite value. -/
theorem round64_pos (q : ℚ) (h : (2 : ℚ) ^ (-1022 : ℤ) ≤ q) :
    round64 q = pinf ∨ ∃ r : ℚ, round64 q = fin r ∧ 0 < r := by
  rcases round64_of_normal q h with hinf | ⟨r, hr, hle⟩
  · exact Or.inl hinf
  · exact Or.inr ⟨r, hr, lt_of_lt_of_le (zpow_pos (by norm_num) _) hle⟩

/-- A value of at least `1` rounds to an infinity or to a finite value of at
least `1`. -/
theorem round64_one_le (q : ℚ) (h : 1 ≤ q) :
    round64 q = pinf ∨ ∃ r : ℚ, round64 q = fin r ∧ 1 ≤ r := by
  have hq : 0 < q := lt_of_lt_of_le one_pos h
  rcases round64_of_normal q (le_trans (by norm_num) h) with hinf | ⟨r, hr, hle⟩
  · exact Or.inl hinf
  · refine Or.inr ⟨r, hr, le_trans ?_ hle⟩
    have h0 : (0 : ℤ) ≤ Int.log 2 q :=
      (Int.zpow_le_iff_le_log (by norm_num) hq).mp (by simpa using h)
    exact one_le_zpow₀ (by norm_num) h0

theorem add64_fin_fin (a b : ℚ) : add64 (fin a) (fin b) = round64 (a + b) :=
  rfl

theorem add64_finite (a : ℚ) (v : Dbl) (hv : v.isFinite = true) :
    add64 (fin a) v = round64 (a + v.toRat) := by
  cases v with
  | nan => simp [isFinite] at hv
  | pinf => simp [isFinite] at hv
  | ninf => simp [isFinite] at hv
  | nzero => simp [add64, toRat]
  | fin b => simp [add64, toRat]

/-- When every partial sum is a binary64 value, the binary64 sum of finite
values is their exact sum. -/
theorem foldl_add64_exact (vs : List Dbl) (a : ℚ) (hfin : ∀ v ∈ vs, v.isFinite = true)
    (hexact : ∀ s ∈ runningSums a (vs.map toRat), exact64 s) :
    vs.foldl add64 (fin a) = fin (a + (vs.map toRat).sum) := by
  induction vs generalizing a with
  | nil => simp
  | cons v vs ih =>
    have hv : v.isFinite = true := hfin v (List.mem_cons_self _ _)
    have hvs : ∀ u ∈ vs, u.isFinite = true := fun u hu => hfin u (List.mem_cons_of_mem _ hu)
    have hhead : exact64 (a + v.toRat) := hexact _ (by simp [runningSums])
    have htail : ∀ s ∈ runningSums (a + v.toRat) (vs.map toRat), exact64 s :=
      fun s hs => hexact s (by simp [runningSums, hs])
    rw [List.foldl_cons, add64_finite a v hv, hhead, ih (a + v.toRat) hvs htail]
    simp [add_assoc]

/-- The partial sums of integers are integers. -/
theorem runningSums_intCast (ns : List ℤ) (a : ℤ) :
    ∀ s ∈ runningSums (a : ℚ) (ns.map (fun n : ℤ => (n : ℚ))), ∃ z : ℤ, s = (z : ℚ) := by
  induction ns generalizing a with
  | nil => simp [runningSums]
  | cons n ns ih =>
    intro s hs
    simp only [List.map_cons, runningSums, List.mem_cons] at hs
    rcases hs with rfl | hs
    · exact ⟨a + n, by push_cast; rfl⟩
    · have := ih (a + n)
      push_cast at this
      exact this s hs

/-- Counting in binary64: adding `1` to a count below `2^53` is exact, and
adding `1` to `2^53` leaves `2^53`. -/
theorem add64_count (n : ℕ) :
    add64 (fin ((min n (2 ^ 53) : ℕ) : ℚ)) (fin 1) = fin ((min (n + 1) (2 ^ 53) : ℕ) : ℚ) := by
  by_cases hn : n < 2 ^ 53
  · rw [min_eq_left hn.le, min_eq_left (by omega : n + 1 ≤ 2 ^ 53)]
    have h := round64_intCast ((n : ℤ) + 1) (by rw [abs_of_nonneg (by omega)]; omega)
    simpa [add64] using h
  · rw [min_eq_right (by omega : 2 ^ 53 ≤ n), min_eq_right (by omega : 2 ^ 53 ≤ n + 1)]
    have h := round64_absorb
    simpa [add64] using h

end Dbl

namespace Counter

theorem foldl_increment64_runningTotal (vs : List Dbl) (c : Counter) :
    (vs.foldl increment64 c).runningTotal = vs.foldl Dbl.add64 c.runningTotal := by
  induction vs generalizing c with
  | nil => rfl
  | cons v vs ih => simp [ih, increment64]

theorem foldl_increment64_measureTotal (vs : List Dbl) (c : Counter) :
    (vs.foldl increment64 c).measureTotal = vs.foldl Dbl.add64 c.measureTotal := by
  induction vs generalizing c with
  | nil => rfl
  | cons v vs ih => simp [ih, increment64]

theorem run64_runningTotal (calls : List CounterCall) (c : Counter)
    (h : ∀ op ∈ calls, op ≠ CounterCall.reset) :
    (c.run64 calls).runningTotal = (incrementValues calls).foldl Dbl.add64 c.runningTotal := by
  induction calls generalizing c with
  | nil => rfl
  | cons op rest ih =>
    have hrest : ∀ op ∈ rest, op ≠ CounterCall.reset :=
      fun o ho => h o (List.mem_cons_of_mem _ ho)
    have hop : op ≠ CounterCall.reset := h op (List.mem_cons_self _ _)
    have step : (c.run64 (op :: rest)) = (c.call64 op).run64 rest := rfl
    rw [step, ih (c.call64 op) hrest]
    cases op with
    | increment v => rfl
    | reset => exact absurd rfl hop
    | getRatePerSecond => rfl
    | getRunningTotal => rfl
    | processRate p => rfl

/-- For a positive period the period in seconds is positive: a positive
finite value, or plus infinity. -/
theorem timePeriodSeconds64_pos (p : Int) (hp : 0 < p) :
    timePeriodSeconds64 p = Dbl.pinf
    ∨ ∃ t : ℚ, timePeriodSeconds64 p = Dbl.fin t ∧ 0 < t := by
  have h1 : (1 : ℚ) ≤ (p : ℚ) := by exact_mod_cast hp
  unfold timePeriodSeconds64 Dbl.ofInt64
  rcases Dbl.round64_one_le (p : ℚ) h1 with hinf | ⟨r, hr, hle⟩
  · left
    rw [hinf]
    exact Dbl.div64_pinf_fin _ (by norm_num)
  · rw [hr, Dbl.div64_fin_fin r 1000000 (by linarith) (by norm_num)]
    refine Dbl.round64_pos _ ?_
    have : (1 : ℚ) / 1000000 ≤ r / 1000000 := by
      apply div_le_div_of_nonneg_right hle (by norm_num)
    exact le_trans (by norm_num) this

theorem processRate64_zero_pending (c : Counter) (hc : c.measureTotal = Dbl.fin 0) (p : Int)
    (hp : 0 < p) : (c.processRate64 p).ratePerSecond = Dbl.fin 0 := by
  simp only [processRate64, hc]
  rcases timePeriodSeconds64_pos p hp with hinf | ⟨t, ht, hpos⟩
  · rw [hinf, Dbl.div64_zero_pinf]
  · rw [ht, Dbl.div64_zero_fin t hpos]

/-- When the conversion of the period and both quotients are exact in
binary64, the stored rate is the exact quotient. -/
theorem processRate64_exact (c : Counter) (p : Int) (m : ℚ) (hp : 0 < p)
    (hm : c.measureTotal = Dbl.fin m)
    (h1 : Dbl.exact64 (p : ℚ)) (h2 : Dbl.exact64 ((p : ℚ) / 1000000))
    (h3 : Dbl.exact64 (m / ((p : ℚ) / 1000000))) :
    (c.processRate64 p).ratePerSecond = Dbl.fin (m / ((p : ℚ) / 1000000)) := by
  have hp0 : (p : ℚ) ≠ 0 := by
    have : (0 : ℚ) < (p : ℚ) := by exact_mod_cast hp
    exact ne_of_gt this
  have hpos : (0 : ℚ) < (p : ℚ) / 1000000 := by
    have : (0 : ℚ) < (p : ℚ) := by exact_mod_cast hp
    positivity
  have ht : timePeriodSeconds64 p = Dbl.fin ((p : ℚ) / 1000000) := by
    unfold timePeriodSeconds64 Dbl.ofInt64
    rw [h1, Dbl.div64_fin_fin _ _ hp0 (by norm_num), h2]
  simp only [processRate64, hm, ht]
  by_cases hm0 : m = 0
  · subst hm0
    rw [Dbl.div64_zero_fin _ hpos]
    simp
  · rw [Dbl.div64_fin_fin _ _ hm0 (ne_of_gt hpos), h3]

end Counter

namespace Dbl

/-- A rational that is an integer of magnitude at most `2^53` is a binary64
value. -/
theorem exact64_of_int (q : ℚ) (n : ℤ) (hq : q = (n : ℚ)) (h : |n| ≤ 2 ^ 53) : exact64 q := by
  unfold exact64
  rw [hq]
  exact round64_intCast n h

end Dbl


/-! ## Claims C1 to C5: the counter in isolation -/

/-- C1. Rate computation law, in binary64: for every counter state and every
period `P > 0`, `processRate(P)` stores in `ratePerSecond` the quotient
`measureTotal / ((double)P / 1000000.0)`, the conversion and the two divisions
rounded as the hardware rounds them; the divisor is positive (a positive
finite value or plus infinity); the stored rate is the exact quotient
`m / (P / 1000000)` of a finite pending total `m` whenever the conversion and
both quotients are exact in binary64; `measureTotal` is set to `0`; and a
second `processRate(P)` with no increment in between stores the rate `0`. -/
theorem C1_rate_computation_law (c : Counter) (p : Int) (hp : 0 < p) :
    (c.processRate64 p).getRatePerSecond
        = Dbl.div64 c.measureTotal (Dbl.div64 (Dbl.ofInt64 p) (Dbl.fin 1000000))
    ∧ (Dbl.div64 (Dbl.ofInt64 p) (Dbl.fin 1000000) = Dbl.pinf
        ∨ ∃ t : ℚ, Dbl.div64 (Dbl.ofInt64 p) (Dbl.fin 1000000) = Dbl.fin t ∧ 0 < t)
    ∧ (∀ m : ℚ, c.measureTotal = Dbl.fin m →
        Dbl.exact64 (p : ℚ) → Dbl.exact64 ((p : ℚ) / 1000000) →
        Dbl.exact64 (m / ((p : ℚ) / 1000000)) →
        (c.processRate64 p).getRatePerSecond = Dbl.fin (m / ((p : ℚ) / 1000000)))
    ∧ (c.processRate64 p).measureTotal = Dbl.fin 0
    ∧ ((c.processRate64 p).processRate64 p).getRatePerSecond = Dbl.fin 0 := by
  refine ⟨rfl, Counter.timePeriodSeconds64_pos p hp, ?_, rfl, ?_⟩
  · intro m hm h1 h2 h3
    exact Counter.processRate64_exact c p m hp hm h1 h2 h3
  · exact Counter.processRate64_zero_pending (c.processRate64 p) rfl p hp

/-- C1 at a counter with pending total `30`, running total `100`, stale rate
`7` and the period `2000000`: the conversion of `2000000`, the period `2` in
seconds and the quotient `15` are exact, so the rate becomes `15`, then `0`. -/
theorem C1_rate_computation_law_witness :
    (0 : Int) < 2000000
    ∧ Dbl.exact64 ((2000000 : Int) : ℚ)
    ∧ Dbl.exact64 (((2000000 : Int) : ℚ) / 1000000)
    ∧ Dbl.exact64 (30 / (((2000000 : Int) : ℚ) / 1000000))
    ∧ ((Counter.mk (Dbl.fin 100) (Dbl.fin 30) (Dbl.fin 7)).processRate64
        2000000).getRatePerSecond = Dbl.fin (30 / (((2000000 : Int) : ℚ) / 1000000))
    ∧ (((Counter.mk (Dbl.fin 100) (Dbl.fin 30) (Dbl.fin 7)).processRate64 2000000).processRate64
        2000000).getRatePerSecond = Dbl.fin 0 :=
  ⟨by decide,
   Dbl.exact64_of_int _ 2000000 (by norm_num) (by norm_num),
   Dbl.exact64_of_int _ 2 (by norm_num) (by norm_num),
   Dbl.exact64_of_int _ 15 (by norm_num) (by norm_num),
   (C1_rate_computation_law (Counter.mk (Dbl.fin 100) (Dbl.fin 30) (Dbl.fin 7)) 2000000
      (by decide)).2.2.1 30 rfl
      (Dbl.exact64_of_int _ 2000000 (by norm_num) (by norm_num))
      (Dbl.exact64_of_int _ 2 (by norm_num) (by norm_num))
      (Dbl.exact64_of_int _ 15 (by norm_num) (by norm_num)),
   (C1_rate_computation_law (Counter.mk (Dbl.fin 100) (Dbl.fin 30) (Dbl.fin 7)) 2000000
      (by decide)).2.2.2.2⟩

/-- C2, as stated, fails on the code: after `increment(1)`,
`increment(2^53)`, `increment(-2^53)` on a fresh counter `getRunningTotal()`
returns `0`, while the sum of the three values is `1`.  The addition of
`2^53` to `1` is rounded to `2^53`. -/
theorem C2_accumulation_counterexample :
    ([Dbl.fin 1, Dbl.fin ((2 : ℚ) ^ (53 : ℕ)), Dbl.fin (-(2 : ℚ) ^ (53 : ℕ))].foldl
        Counter.increment64 Counter.fresh).getRunningTotal = Dbl.fin 0
    ∧ ([1, (2 : ℚ) ^ (53 : ℕ), -(2 : ℚ) ^ (53 : ℕ)] : List ℚ).sum = 1
    ∧ Dbl.eq (Dbl.fin 0) (Dbl.fin 1) = false := by
  refine ⟨?_, by norm_num, by simp [Dbl.eq, Dbl.isNaN, Dbl.isZero]⟩
  have h1 : Dbl.round64 ((0 : ℚ) + 1) = Dbl.fin 1 := by
    have := Dbl.round64_intCast 1 (by norm_num)
    simpa using this
  have h2 : Dbl.round64 ((1 : ℚ) + (2 : ℚ) ^ (53 : ℕ)) = Dbl.fin ((2 : ℚ) ^ (53 : ℕ)) := by
    rw [add_comm]
    exact Dbl.round64_absorb
  have h3 : Dbl.round64 ((2 : ℚ) ^ (53 : ℕ) + -(2 : ℚ) ^ (53 : ℕ)) = Dbl.fin 0 := by
    rw [add_neg_cancel]
    exact Dbl.round64_zero
  rw [Counter.getRunningTotal, Counter.foldl_increment64_runningTotal, List.foldl_cons,
    List.foldl_cons, List.foldl_cons, List.foldl_nil,
    show Counter.fresh.runningTotal = Dbl.fin 0 from rfl,
    Dbl.add64_fin_fin, h1, Dbl.add64_fin_fin, h2, Dbl.add64_fin_fin, h3]

/-- C2, amended.  Accumulation in binary64: for every finite sequence of
values `v1..vn` (any signs, special values included, the empty sequence
included), `increment(v1)`, ..., `increment(vn)` in that order on a fresh
counter make `getRunningTotal()` return the binary64 sum of `v1..vn`, added
from the left and rounded at every addition; for finite values this is the
exact sum `sum(v1..vn)` whenever every partial sum is a binary64 value, in
particular for integers whose partial sums have magnitude at most `2^53`. -/
theorem C2_accumulation (vs : List Dbl) (qs : List ℚ) (ns : List ℤ)
    (hexact : ∀ s ∈ runningSums 0 qs, Dbl.exact64 s)
    (hbound : ∀ s ∈ runningSums 0 (ns.map (fun n : ℤ => (n : ℚ))), |s| ≤ 2 ^ 53) :
    (vs.foldl Counter.increment64 Counter.fresh).getRunningTotal = Dbl.sum64 vs
    ∧ ((qs.map Dbl.fin).foldl Counter.increment64 Counter.fresh).getRunningTotal
        = Dbl.fin qs.sum
    ∧ ((ns.map (fun n : ℤ => Dbl.fin (n : ℚ))).foldl Counter.increment64
        Counter.fresh).getRunningTotal = Dbl.fin ((ns.sum : ℤ) : ℚ) := by
  have key : ∀ rs : List ℚ, (∀ s ∈ runningSums 0 rs, Dbl.exact64 s) →
      ((rs.map Dbl.fin).foldl Counter.increment64 Counter.fresh).getRunningTotal
        = Dbl.fin rs.sum := by
    intro rs hrs
    have hmap : (rs.map Dbl.fin).map Dbl.toRat = rs := by
      simp [Function.comp_def, Dbl.toRat]
    have h := Dbl.foldl_add64_exact (rs.map Dbl.fin) 0
      (by intro v hv; obtain ⟨q, _, rfl⟩ := List.mem_map.mp hv; rfl)
      (by rw [hmap]; exact hrs)
    rw [hmap, zero_add] at h
    rw [Counter.getRunningTotal, Counter.foldl_increment64_runningTotal]
    exact h
  refine ⟨?_, key qs hexact, ?_⟩
  · rw [Counter.getRunningTotal, Counter.foldl_increment64_runningTotal]
    rfl
  · have hints : ∀ s ∈ runningSums 0 (ns.map (fun n : ℤ => (n : ℚ))), Dbl.exact64 s := by
      intro s hs
      have hz := Dbl.runningSums_intCast ns 0
      rw [Int.cast_zero] at hz
      obtain ⟨z, rfl⟩ := hz s hs
      have hb := hbound _ hs
      refine Dbl.exact64_of_int _ z rfl ?_
      have : |((z : ℤ) : ℚ)| ≤ ((2 ^ 53 : ℤ) : ℚ) := by
        simpa using hb
      rw [← Int.cast_abs] at this
      exact_mod_cast this
    have h := key (ns.map (fun n : ℤ => (n : ℚ))) hints
    simpa [List.map_map, Function.comp_def] using h

/-- C2 (amended) at the values `10, 10, 10`, whose partial sums `10, 20, 30`
are binary64 values, and at the integers `10, -3, 5`: the running totals are
`30` and `12`. -/
theorem C2_accumulation_witness :
    (∀ s ∈ runningSums 0 [10, 10, 10], Dbl.exact64 s)
    ∧ (∀ s ∈ runningSums 0 (([10, -3, 5] : List ℤ).map (fun n : ℤ => (n : ℚ))), |s| ≤ 2 ^ 53)
    ∧ ((([10, 10, 10] : List ℚ).map Dbl.fin).foldl Counter.increment64
        Counter.fresh).getRunningTotal = Dbl.fin ([10, 10, 10] : List ℚ).sum
    ∧ ((([10, -3, 5] : List ℤ).map (fun n : ℤ => Dbl.fin (n : ℚ))).foldl Counter.increment64
        Counter.fresh).getRunningTotal = Dbl.fin ((([10, -3, 5] : List ℤ).sum : ℤ) : ℚ) :=
  have h1 : ∀ s ∈ runningSums 0 [10, 10, 10], Dbl.exact64 s := by
    intro s hs
    simp only [runningSums, List.mem_cons, List.mem_nil_iff, or_false] at hs
    rcases hs with rfl | rfl | rfl
    · exact Dbl.exact64_of_int _ 10 (by norm_num) (by norm_num)
    · exact Dbl.exact64_of_int _ 20 (by norm_num) (by norm_num)
    · exact Dbl.exact64_of_int _ 30 (by norm_num) (by norm_num)
  have h2 : ∀ s ∈ runningSums 0 (([10, -3, 5] : List ℤ).map (fun n : ℤ => (n : ℚ))),
      |s| ≤ 2 ^ 53 := by
    intro s hs
    simp only [List.map_cons, List.map_nil, runningSums, List.mem_cons, List.mem_nil_iff,
      or_false] at hs
    rcases hs with rfl | rfl | rfl <;> norm_num
  ⟨h1, h2, (C2_accumulation [] [10, 10, 10] [10, -3, 5] h1 h2).2.1,
   (C2_accumulation [] [10, 10, 10] [10, -3, 5] h1 h2).2.2⟩

/-- C3, as stated, fails on the code: after `reset()` a `processRate(0)`
divides `0` by `0` and stores NaN, which does not compare equal to `0`. -/
theorem C3_reset_zero_period_counterexample :
    (Counter.fresh.reset.processRate 0).getRatePerSecond = Dbl.nan
    ∧ Dbl.eq (Counter.fresh.reset.processRate 0).getRatePerSecond (Dbl.fin 0) = false := by
  constructor <;> with_unfolding_all decide

/-- C3, amended. For every counter state `reset()` sets `runningTotal`,
`measureTotal` and `ratePerSecond` to zero, which is the state of a fresh
counter, so `reset` is idempotent; afterwards `getRunningTotal()` and
`getRatePerSecond()` return `0`; and a subsequent `processRate(P)` with
`P ≠ 0` and no increment in between leaves a rate that compares equal to `0`
(`+0` for `P > 0`, `-0` for `P < 0`). -/
theorem C3_reset (c : Counter) (p : Int) (hp : p ≠ 0) :
    c.reset = Counter.fresh
    ∧ c.reset.reset = c.reset
    ∧ c.reset.runningTotal = Dbl.fin 0
    ∧ c.reset.measureTotal = Dbl.fin 0
    ∧ c.reset.ratePerSecond = Dbl.fin 0
    ∧ c.reset.getRunningTotal = Dbl.fin 0
    ∧ c.reset.getRatePerSecond = Dbl.fin 0
    ∧ (c.reset.processRate p).getRatePerSecond = (if 0 < p then Dbl.fin 0 else Dbl.nzero)
    ∧ Dbl.eq (c.reset.processRate p).getRatePerSecond (Dbl.fin 0) = true := by
  have h := Counter.processRate_zero_pending c.reset rfl p
  simp only [hp, if_false] at h
  refine ⟨rfl, rfl, rfl, rfl, rfl, rfl, rfl, h, ?_⟩
  rw [Counter.getRatePerSecond, h]
  by_cases h0 : 0 < p <;> simp [h0, Dbl.eq, Dbl.isNaN, Dbl.isZero]

/-- C3 (amended) at a counter with totals `5`, `3`, rate `2` and the period
`-4`: the rate after `reset(); processRate(-4)` is `-0`, equal to `0`. -/
theorem C3_reset_witness :
    (-4 : Int) ≠ 0
    ∧ (Counter.mk (Dbl.fin 5) (Dbl.fin 3) (Dbl.fin 2)).reset = Counter.fresh
    ∧ Dbl.eq ((Counter.mk (Dbl.fin 5) (Dbl.fin 3) (Dbl.fin 2)).reset.processRate
        (-4)).getRatePerSecond (Dbl.fin 0) = true :=
  ⟨by decide,
   (C3_reset (Counter.mk (Dbl.fin 5) (Dbl.fin 3) (Dbl.fin 2)) (-4) (by decide)).1,
   (C3_reset (Counter.mk (Dbl.fin 5) (Dbl.fin 3) (Dbl.fin 2)) (-4) (by decide)).2.2.2.2.2.2.2.2⟩

/-- C4. End-to-end scenario: on a fresh counter, `increment(10)` three times
leaves the pending total `30`; `processRate(2000000)` then gives
`getRatePerSecond() == 15.0` with `measureTotal` back at `0` and
`getRunningTotal() == 30`; a following `processRate(1000000)` with no
increments gives `getRatePerSecond() == 0.0`. -/
theorem C4_end_to_end_scenario :
    (((Counter.fresh.increment (Dbl.fin 10)).increment (Dbl.fin 10)).increment
        (Dbl.fin 10)).measureTotal = Dbl.fin 30
    ∧ ((((Counter.fresh.increment (Dbl.fin 10)).increment (Dbl.fin 10)).increment
        (Dbl.fin 10)).processRate 2000000).getRatePerSecond = Dbl.fin 15
    ∧ ((((Counter.fresh.increment (Dbl.fin 10)).increment (Dbl.fin 10)).increment
        (Dbl.fin 10)).processRate 2000000).measureTotal = Dbl.fin 0
    ∧ ((((Counter.fresh.increment (Dbl.fin 10)).increment (Dbl.fin 10)).increment
        (Dbl.fin 10)).processRate 2000000).getRunningTotal = Dbl.fin 30
    ∧ (((((Counter.fresh.increment (Dbl.fin 10)).increment (Dbl.fin 10)).increment
        (Dbl.fin 10)).processRate 2000000).processRate 1000000).getRatePerSecond
        = Dbl.fin 0 := by
  refine ⟨?_, ?_, ?_, ?_, ?_⟩ <;> with_unfolding_all decide

/-- C5. No double counting, in binary64: for every counter state with pending
total `M`, every value `x` and all periods `P, P' > 0`,
`increment(x); processRate(P)` yields the rate `(M + x) / (P / 1000000)`,
every operation rounded (the exact quotient when `M` and `x` are finite and
the sum, the conversion and both quotients are exact in binary64), and the
rate produced by the next `processRate(P')` is `(y1 + ... + yk) / (P' / 1000000)`
for the increments `y1..yk` made after the first `processRate`: it depends on
neither `M` nor `x`, and is `0` when there are none. -/
theorem C5_no_double_counting (c : Counter) (x : Dbl) (p p' : Int) (hp : 0 < p)
    (hp' : 0 < p') (ys : List Dbl) :
    ((c.increment64 x).processRate64 p).getRatePerSecond
        = Dbl.div64 (Dbl.add64 c.measureTotal x) (Dbl.div64 (Dbl.ofInt64 p) (Dbl.fin 1000000))
    ∧ (∀ m q : ℚ, c.measureTotal = Dbl.fin m → x = Dbl.fin q →
        Dbl.exact64 (m + q) → Dbl.exact64 (p : ℚ) → Dbl.exact64 ((p : ℚ) / 1000000) →
        Dbl.exact64 ((m + q) / ((p : ℚ) / 1000000)) →
        ((c.increment64 x).processRate64 p).getRatePerSecond
          = Dbl.fin ((m + q) / ((p : ℚ) / 1000000)))
    ∧ ((ys.foldl Counter.increment64 ((c.increment64 x).processRate64 p)).processRate64
        p').getRatePerSecond
        = Dbl.div64 (Dbl.sum64 ys) (Dbl.div64 (Dbl.ofInt64 p') (Dbl.fin 1000000))
    ∧ (((c.increment64 x).processRate64 p).processRate64 p').getRatePerSecond = Dbl.fin 0 := by
  refine ⟨rfl, ?_, ?_, ?_⟩
  · intro m q hm hx h0 h1 h2 h3
    refine Counter.processRate64_exact (c.increment64 x) p (m + q) hp ?_ h1 h2 h3
    simp only [Counter.increment64, hm, hx, Dbl.add64_fin_fin]
    exact h0
  · rw [Counter.getRatePerSecond]
    simp only [Counter.processRate64]
    rw [Counter.foldl_increment64_measureTotal]
    rfl
  · exact Counter.processRate64_zero_pending ((c.increment64 x).processRate64 p) rfl p' hp'

/-- C5 at a counter with pending total `4`, the value `6`, the periods
`2000000` and `1000000` and one later increment by `3`: the first rate is
`10 / 2 = 5`, every step exact, and the second is `3` over one second. -/
theorem C5_no_double_counting_witness :
    (0 : Int) < 2000000 ∧ (0 : Int) < 1000000
    ∧ (((Counter.mk (Dbl.fin 9) (Dbl.fin 4) (Dbl.fin 0)).increment64 (Dbl.fin 6)).processRate64
        2000000).getRatePerSecond = Dbl.fin ((4 + 6) / (((2000000 : Int) : ℚ) / 1000000))
    ∧ (([Dbl.fin 3].foldl Counter.increment64
        (((Counter.mk (Dbl.fin 9) (Dbl.fin 4) (Dbl.fin 0)).increment64
          (Dbl.fin 6)).processRate64 2000000)).processRate64 1000000).getRatePerSecond
        = Dbl.div64 (Dbl.sum64 [Dbl.fin 3]) (Dbl.div64 (Dbl.ofInt64 1000000) (Dbl.fin 1000000)) :=
  ⟨by decide, by decide,
   (C5_no_double_counting (Counter.mk (Dbl.fin 9) (Dbl.fin 4) (Dbl.fin 0)) (Dbl.fin 6)
      2000000 1000000 (by decide) (by decide) [Dbl.fin 3]).2.1 4 6 rfl rfl
      (Dbl.exact64_of_int _ 10 (by norm_num) (by norm_num))
      (Dbl.exact64_of_int _ 2000000 (by norm_num) (by norm_num))
      (Dbl.exact64_of_int _ 2 (by norm_num) (by norm_num))
      (Dbl.exact64_of_int _ 5 (by norm_num) (by norm_num)),
   (C5_no_double_counting (Counter.mk (Dbl.fin 9) (Dbl.fin 4) (Dbl.fin 0)) (Dbl.fin 6)
      2000000 1000000 (by decide) (by decide) [Dbl.fin 3]).2.2.1⟩

/-! ## Claim C6: conservation of increments across ticks -/

namespace Dbl

theorem add_finite (x y : Dbl) (hx : x.isFinite = true) (hy : y.isFinite = true) :
    (add x y).isFinite = true ∧ (add x y).toRat = x.toRat + y.toRat := by
  cases x <;> cases y <;> simp_all [add, isFinite, toRat]

theorem div_finite_of_pos (x : Dbl) (b : ℚ) (hx : x.isFinite = true) (hb : 0 < b) :
    (div x (fin b)).isFinite = true ∧ (div x (fin b)).toRat * b = x.toRat := by
  have hb0 : b ≠ 0 := ne_of_gt hb
  have hb1 : ¬ b < 0 := not_lt.mpr hb.le
  cases x with
  | nan => simp [isFinite] at hx
  | pinf => simp [isFinite] at hx
  | ninf => simp [isFinite] at hx
  | nzero => simp [div, isNaN, isInf, isZero, signBit, signedZero, isFinite, toRat, hb0, hb1]
  | fin a =>
    rw [div_fin_of_pos a b hb]
    simp [isFinite, toRat, div_mul_cancel₀, hb0]

end Dbl

namespace Counter

/-- Conservation from an arbitrary start state with a finite pending total:
what the ticks account for plus what is still pending equals what was pending
at the start plus what the increments added. -/
theorem conservation_from (calls : List CounterCall) (c : Counter)
    (hc : c.measureTotal.isFinite = true)
    (h : ∀ op ∈ calls, op.conserving = true) :
    (∀ t ∈ c.ticks calls, t.2.isFinite = true)
    ∧ (c.run calls).measureTotal.isFinite = true
    ∧ accounted (c.ticks calls) + (c.run calls).measureTotal.toRat
        = c.measureTotal.toRat + ((incrementValues calls).map Dbl.toRat).sum := by
  induction calls generalizing c with
  | nil => simp [ticks, run, accounted, incrementValues, hc]
  | cons op rest ih =>
    have hrest : ∀ op ∈ rest, op.conserving = true := fun o ho => h o (List.mem_cons_of_mem _ ho)
    have hop : op.conserving = true := h op (List.mem_cons_self _ _)
    cases op with
    | increment v =>
      have hv : v.isFinite = true := by simpa [CounterCall.conserving] using hop
      obtain ⟨hf, hr⟩ := Dbl.add_finite c.measureTotal v hc hv
      obtain ⟨h1, h2, h3⟩ := ih (c.increment v) hf hrest
      refine ⟨h1, h2, ?_⟩
      have h3' : accounted ((c.increment v).ticks rest)
          + ((c.increment v).run rest).measureTotal.toRat
          = c.measureTotal.toRat + v.toRat + ((incrementValues rest).map Dbl.toRat).sum := by
        rw [h3]; simp only [increment]; rw [hr]
      simpa [ticks, run, call, incrementValues, add_assoc] using h3'
    | reset => simp [CounterCall.conserving] at hop
    | getRatePerSecond =>
      obtain ⟨h1, h2, h3⟩ := ih c hc hrest
      exact ⟨h1, h2, by simpa [ticks, run, call, incrementValues] using h3⟩
    | getRunningTotal =>
      obtain ⟨h1, h2, h3⟩ := ih c hc hrest
      exact ⟨h1, h2, by simpa [ticks, run, call, incrementValues] using h3⟩
    | processRate p =>
      have hp : 0 < p := by simpa [CounterCall.conserving] using hop
      obtain ⟨hf, hr⟩ := Dbl.div_finite_of_pos c.measureTotal _ hc (timePeriodSeconds_pos p hp)
      obtain ⟨h1, h2, h3⟩ := ih (c.processRate p) rfl hrest
      have hrate : (c.processRate p).ratePerSecond
          = Dbl.div c.measureTotal (Dbl.fin ((p : ℚ) / 1000000)) := by
        simp [processRate, timePeriodSeconds_eq]
      refine ⟨?_, h2, ?_⟩
      · intro t ht
        simp only [ticks, List.mem_cons] at ht
        rcases ht with rfl | ht
        · simpa [hrate] using hf
        · exact h1 t ht
      · have h3' : accounted ((c.processRate p).ticks rest)
            + ((c.processRate p).run rest).measureTotal.toRat
            = ((incrementValues rest).map Dbl.toRat).sum := by
          rw [h3]; simp [processRate, Dbl.toRat]
        simp only [ticks, accounted, run, List.foldl_cons, call, incrementValues, hrate, hr]
        rw [add_assoc]
        exact congrArg _ h3'

end Counter

/-- C6. Conservation of increments across ticks: for every sequence of
`increment(v)` calls with finite `v` and `processRate(P_k)` calls with
`P_k > 0` (readers allowed, no `reset`) applied to a fresh counter, every
stored rate and the final `measureTotal` are finite and, in exact arithmetic,
the sum over all ticks of `ratePerSecond_k * (P_k / 1000000)` plus the final
`measureTotal` equals the sum of all increment values. -/
theorem C6_conservation_across_ticks (calls : List CounterCall)
    (h : ∀ op ∈ calls, op.conserving = true) :
    (∀ t ∈ Counter.fresh.ticks calls, t.2.isFinite = true)
    ∧ (Counter.fresh.run calls).measureTotal.isFinite = true
    ∧ accounted (Counter.fresh.ticks calls) + (Counter.fresh.run calls).measureTotal.toRat
        = ((incrementValues calls).map Dbl.toRat).sum := by
  have hc := Counter.conservation_from calls Counter.fresh rfl h
  simpa [Counter.fresh, Dbl.toRat] using hc

/-- C6 at `sampleCalls`: the two ticks account for `15` and `3`, `4` is still
pending, and the increments sum to `22`. -/
theorem C6_conservation_across_ticks_witness :
    (∀ op ∈ sampleCalls, op.conserving = true)
    ∧ accounted (Counter.fresh.ticks sampleCalls)
        + (Counter.fresh.run sampleCalls).measureTotal.toRat
        = ((incrementValues sampleCalls).map Dbl.toRat).sum
    ∧ ((incrementValues sampleCalls).map Dbl.toRat).sum = 22 :=
  ⟨by decide, (C6_conservation_across_ticks sampleCalls (by decide)).2.2,
   by with_unfolding_all decide⟩


/-! ## Claim C7: registration order and `resetCounters` -/

namespace World

/-- Calling `reset()` on the counters at the given addresses, one after the
other in list order. -/
theorem foldl_reset_monitor (ps : List Nat) (w : World) :
    (ps.foldl (fun w p => w.callAt p .reset) w).monitor = w.monitor := by
  induction ps generalizing w with
  | nil => rfl
  | cons p ps ih => rw [List.foldl_cons, ih]; rfl

theorem foldl_reset_trace (ps : List Nat) (w : World) :
    (ps.foldl (fun w p => w.callAt p .reset) w).trace
      = w.trace ++ ps.map (fun p => (p, CounterCall.reset)) := by
  induction ps generalizing w with
  | nil => simp
  | cons p ps ih => rw [List.foldl_cons, ih]; simp [callAt]

theorem foldl_reset_heap (ps : List Nat) (w : World) (q : Nat) :
    (ps.foldl (fun w p => w.callAt p .reset) w).heap q
      = if q ∈ ps then Counter.fresh else w.heap q := by
  induction ps generalizing w with
  | nil => simp
  | cons p ps ih =>
    simp only [List.foldl_cons, ih, List.mem_cons]
    by_cases hq : q ∈ ps
    · simp [hq]
    · by_cases hqp : q = p
      · subst hqp
        simp [hq, callAt, Counter.call, Counter.reset, Counter.fresh]
      · simp [hq, hqp, callAt, Function.update]

end World

namespace RateMonitor

theorem foldl_registerCounter_counters (cs : List Nat) (w : World) :
    (cs.foldl registerCounter w).monitor.counters = w.monitor.counters ++ cs := by
  induction cs generalizing w with
  | nil => simp
  | cons c cs ih => simp [ih, registerCounter]

/-- The loop started at index `i` with enough iterations left visits the
entries `i, i+1, ...` of the list in order. -/
theorem resetCountersLoop_eq (fuel i : Nat) (w : World)
    (hfuel : w.monitor.counters.length ≤ fuel + i) :
    resetCountersLoop fuel i w
      = (w.monitor.counters.drop i).foldl (fun w p => w.callAt p .reset) w := by
  induction fuel generalizing i w with
  | zero =>
    have : w.monitor.counters.drop i = [] := List.drop_eq_nil_of_le (by simpa using hfuel)
    simp [resetCountersLoop, this]
  | succ fuel ih =>
    by_cases h : i < w.monitor.counters.length
    · have hd : w.monitor.counters.drop i
          = w.monitor.counters.get ⟨i, h⟩ :: w.monitor.counters.drop (i + 1) :=
        List.drop_eq_getElem_cons h
      rw [resetCountersLoop, dif_pos h, hd, List.foldl_cons]
      exact ih (i + 1) _ (by simp only [World.callAt]; omega)
    · have : w.monitor.counters.drop i = [] := List.drop_eq_nil_of_le (not_lt.mp h)
      simp [resetCountersLoop, h, this]

theorem resetCounters_eq (w : World) :
    resetCounters w = w.monitor.counters.foldl (fun w p => w.callAt p .reset) w := by
  simpa [resetCounters] using resetCountersLoop_eq w.monitor.counters.length 0 w (by simp)

end RateMonitor

/-- C7. Registration order preserved: `registerCounter` appends the counter at
the end of the list and touches no counter, so after registering `c1..cn` on
an empty monitor the list is exactly `c1..cn`; `resetCounters()` calls
`reset()` once per list entry, in list order, and makes no other call; it
leaves the list unchanged; afterwards every registered counter is in the
state of a fresh counter (running total `0`, rate `0`), and every other
counter is untouched. -/
theorem C7_registration_order_preserved (w : World) (c : Nat) (cs : List Nat) :
    (RateMonitor.registerCounter w c).monitor.counters = w.monitor.counters ++ [c]
    ∧ (RateMonitor.registerCounter w c).heap = w.heap
    ∧ (RateMonitor.registerCounter w c).trace = w.trace
    ∧ (cs.foldl RateMonitor.registerCounter w).monitor.counters = w.monitor.counters ++ cs
    ∧ (cs.foldl RateMonitor.registerCounter { w with monitor := {} }).monitor.counters = cs
    ∧ (RateMonitor.resetCounters w).trace
        = w.trace ++ w.monitor.counters.map (fun p => (p, CounterCall.reset))
    ∧ (RateMonitor.resetCounters w).monitor = w.monitor
    ∧ (∀ p ∈ w.monitor.counters,
        (RateMonitor.resetCounters w).heap p = Counter.fresh
        ∧ ((RateMonitor.resetCounters w).heap p).getRunningTotal = Dbl.fin 0
        ∧ ((RateMonitor.resetCounters w).heap p).getRatePerSecond = Dbl.fin 0)
    ∧ (∀ p, p ∉ w.monitor.counters → (RateMonitor.resetCounters w).heap p = w.heap p) := by
  refine ⟨rfl, rfl, rfl, RateMonitor.foldl_registerCounter_counters cs w, ?_, ?_, ?_, ?_, ?_⟩
  · simp [RateMonitor.foldl_registerCounter_counters]
  · rw [RateMonitor.resetCounters_eq, World.foldl_reset_trace]
  · rw [RateMonitor.resetCounters_eq, World.foldl_reset_monitor]
  · intro p hp
    have h : (RateMonitor.resetCounters w).heap p = Counter.fresh := by
      rw [RateMonitor.resetCounters_eq, World.foldl_reset_heap, if_pos hp]
    rw [h]
    exact ⟨rfl, rfl, rfl⟩
  · intro p hp
    rw [RateMonitor.resetCounters_eq, World.foldl_reset_heap, if_neg hp]

/-- C7 at `sampleWorld`, whose list is `7, 2, 7`: `resetCounters()` calls
`reset()` at `7`, `2`, `7` in this order, address `2` ends fresh and address
`5`, which is not registered, keeps its counter. -/
theorem C7_registration_order_preserved_witness :
    2 ∈ sampleWorld.monitor.counters ∧ 5 ∉ sampleWorld.monitor.counters
    ∧ (RateMonitor.resetCounters sampleWorld).trace
        = [(7, CounterCall.reset), (2, CounterCall.reset), (7, CounterCall.reset)]
    ∧ (RateMonitor.resetCounters sampleWorld).heap 2 = Counter.fresh
    ∧ (RateMonitor.resetCounters sampleWorld).heap 5 = sampleWorld.heap 5 :=
  ⟨by decide, by decide,
   (C7_registration_order_preserved sampleWorld 0 []).2.2.2.2.2.1,
   ((C7_registration_order_preserved sampleWorld 0 []).2.2.2.2.2.2.2.1 2 (by decide)).1,
   (C7_registration_order_preserved sampleWorld 0 []).2.2.2.2.2.2.2.2 5 (by decide)⟩

/-! ## Claims C8 and C9: the running total -/

namespace Dbl

theorem le_add_of_nonneg (x v : Dbl) (hnan : x.isNaN = false) (hninf : x ≠ ninf)
    (hv : le (fin 0) v = true) : le x (add x v) = true := by
  cases x <;> cases v <;> simp_all [add, le, isNaN, toRat]

theorem le_self (x : Dbl) (hnan : x.isNaN = false) : le x x = true := by
  cases x <;> simp_all [le, isNaN, toRat]

end Dbl

/-- C8, as stated, fails on the code: `increment(-1)` on a fresh counter takes
`runningTotal` from `0` to `-1`, and `0 <= -1` is false. -/
theorem C8_negative_increment_counterexample :
    (Counter.fresh.call (.increment (Dbl.fin (-1)))).runningTotal = Dbl.fin (-1)
    ∧ Dbl.le Counter.fresh.runningTotal
        (Counter.fresh.call (.increment (Dbl.fin (-1)))).runningTotal = false := by
  constructor <;> with_unfolding_all decide

/-- C8, amended. For every counter state whose `runningTotal` is neither NaN
nor minus infinity and every call other than `reset`, where an `increment`
has a value `>= 0`: the `runningTotal` after the call is greater than or equal
to the `runningTotal` before it; and `processRate` (any period) and the two
readers leave `runningTotal` unchanged in every state. -/
theorem C8_runningTotal_monotone (c : Counter) (op : CounterCall)
    (hop : op ≠ CounterCall.reset)
    (hnan : c.runningTotal.isNaN = false) (hninf : c.runningTotal ≠ Dbl.ninf)
    (hv : ∀ v, op = CounterCall.increment v → Dbl.le (Dbl.fin 0) v = true) :
    Dbl.le c.runningTotal (c.call op).runningTotal = true
    ∧ ((∀ v, op ≠ CounterCall.increment v) → (c.call op).runningTotal = c.runningTotal) := by
  cases op with
  | increment v =>
    exact ⟨Dbl.le_add_of_nonneg _ _ hnan hninf (hv v rfl), fun h => absurd rfl (h v)⟩
  | reset => exact absurd rfl hop
  | getRatePerSecond => exact ⟨Dbl.le_self _ hnan, fun _ => rfl⟩
  | getRunningTotal => exact ⟨Dbl.le_self _ hnan, fun _ => rfl⟩
  | processRate p => exact ⟨Dbl.le_self _ hnan, fun _ => rfl⟩

/-- C8 (amended) at a counter with running total `-5` and the call
`increment(2)`: the running total does not decrease. -/
theorem C8_runningTotal_monotone_witness :
    CounterCall.increment (Dbl.fin 2) ≠ CounterCall.reset
    ∧ (Counter.mk (Dbl.fin (-5)) (Dbl.fin 1) (Dbl.fin 0)).runningTotal.isNaN = false
    ∧ (Counter.mk (Dbl.fin (-5)) (Dbl.fin 1) (Dbl.fin 0)).runningTotal ≠ Dbl.ninf
    ∧ (∀ v, CounterCall.increment (Dbl.fin 2) = CounterCall.increment v →
        Dbl.le (Dbl.fin 0) v = true)
    ∧ Dbl.le (Counter.mk (Dbl.fin (-5)) (Dbl.fin 1) (Dbl.fin 0)).runningTotal
        ((Counter.mk (Dbl.fin (-5)) (Dbl.fin 1) (Dbl.fin 0)).call
          (.increment (Dbl.fin 2))).runningTotal = true :=
  ⟨by decide, rfl, by decide,
   fun v hv => by cases hv; with_unfolding_all decide,
   (C8_runningTotal_monotone (Counter.mk (Dbl.fin (-5)) (Dbl.fin 1) (Dbl.fin 0))
      (.increment (Dbl.fin 2)) (by decide) rfl (by decide)
      (fun v hv => by cases hv; with_unfolding_all decide)).1⟩

/-- C9, as stated, fails on the code: after `increment(2^53)`,
`processRate(1000000)`, `increment(1)`, `increment(1)` on a fresh counter
`getRunningTotal()` returns `2^53`, while the increment values sum to
`2^53 + 2`.  Each addition of `1` to `2^53` is absorbed by the rounding. -/
theorem C9_running_total_counterexample :
    (Counter.fresh.run64
        [.increment (Dbl.fin ((2 : ℚ) ^ (53 : ℕ))), .processRate 1000000,
         .increment (Dbl.fin 1), .increment (Dbl.fin 1)]).getRunningTotal
      = Dbl.fin ((2 : ℚ) ^ (53 : ℕ))
    ∧ ((incrementValues
        [.increment (Dbl.fin ((2 : ℚ) ^ (53 : ℕ))), .processRate 1000000,
         .increment (Dbl.fin 1), .increment (Dbl.fin 1)]).map Dbl.toRat).sum
      = (2 : ℚ) ^ (53 : ℕ) + 2
    ∧ Dbl.eq (Dbl.fin ((2 : ℚ) ^ (53 : ℕ))) (Dbl.fin ((2 : ℚ) ^ (53 : ℕ) + 2)) = false := by
  refine ⟨?_, ?_, ?_⟩
  · have h1 : Dbl.round64 ((0 : ℚ) + (2 : ℚ) ^ (53 : ℕ)) = Dbl.fin ((2 : ℚ) ^ (53 : ℕ)) := by
      have := Dbl.round64_intCast (2 ^ 53) (by norm_num)
      rw [zero_add]
      simpa using this
    rw [Counter.getRunningTotal,
      Counter.run64_runningTotal _ _ (by
        intro op hop
        simp only [List.mem_cons, List.mem_nil_iff, or_false] at hop
        rcases hop with rfl | rfl | rfl | rfl <;> exact fun h => CounterCall.noConfusion h)]
    rw [show incrementValues
        [.increment (Dbl.fin ((2 : ℚ) ^ (53 : ℕ))), .processRate 1000000,
         .increment (Dbl.fin 1), .increment (Dbl.fin 1)]
        = [Dbl.fin ((2 : ℚ) ^ (53 : ℕ)), Dbl.fin 1, Dbl.fin 1] from rfl]
    rw [List.foldl_cons, List.foldl_cons, List.foldl_cons, List.foldl_nil,
      show Counter.fresh.runningTotal = Dbl.fin 0 from rfl,
      Dbl.add64_fin_fin, h1, Dbl.add64_fin_fin, Dbl.round64_absorb, Dbl.add64_fin_fin,
      Dbl.round64_absorb]
  · rw [show incrementValues
        [.increment (Dbl.fin ((2 : ℚ) ^ (53 : ℕ))), .processRate 1000000,
         .increment (Dbl.fin 1), .increment (Dbl.fin 1)]
        = [Dbl.fin ((2 : ℚ) ^ (53 : ℕ)), Dbl.fin 1, Dbl.fin 1] from rfl]
    simp only [List.map_cons, List.map_nil, Dbl.toRat, List.sum_cons, List.sum_nil]
    norm_num
  · simp [Dbl.eq, Dbl.isNaN, Dbl.isZero]

/-- C9, amended.  Running total is never auto-reset: `processRate(P)`, for
every period `P`, leaves `runningTotal` unchanged, so after every sequence of
`increment` and `processRate` calls (readers allowed, no `reset`) on a fresh
counter `getRunningTotal()` equals the binary64 sum of all increment values,
added from the left and rounded at every addition, which is their exact sum
whenever they are finite and every partial sum is a binary64 value; and
`increment` leaves `ratePerSecond` unchanged. -/
theorem C9_running_total_never_auto_reset (c : Counter) (p : Int) (v : Dbl)
    (calls : List CounterCall) (h : ∀ op ∈ calls, op ≠ CounterCall.reset) :
    (c.processRate64 p).runningTotal = c.runningTotal
    ∧ (c.increment64 v).ratePerSecond = c.ratePerSecond
    ∧ (Counter.fresh.run64 calls).getRunningTotal = Dbl.sum64 (incrementValues calls)
    ∧ ((∀ u ∈ incrementValues calls, u.isFinite = true) →
        (∀ s ∈ runningSums 0 ((incrementValues calls).map Dbl.toRat), Dbl.exact64 s) →
        (Counter.fresh.run64 calls).getRunningTotal
          = Dbl.fin (((incrementValues calls).map Dbl.toRat).sum)) := by
  have hrun := Counter.run64_runningTotal calls Counter.fresh h
  refine ⟨rfl, rfl, hrun, ?_⟩
  intro hfin hexact
  have := Dbl.foldl_add64_exact (incrementValues calls) 0 hfin hexact
  rw [zero_add] at this
  rw [Counter.getRunningTotal, hrun]
  exact this

/-- C9 (amended) at `sampleCalls`, whose increment values `10, 5, 3, 4` have
the partial sums `10, 15, 18, 22`, all binary64 values: the running total
after the seven calls is `22`. -/
theorem C9_running_total_never_auto_reset_witness :
    (∀ op ∈ sampleCalls, op ≠ CounterCall.reset)
    ∧ (∀ u ∈ incrementValues sampleCalls, u.isFinite = true)
    ∧ (∀ s ∈ runningSums 0 ((incrementValues sampleCalls).map Dbl.toRat), Dbl.exact64 s)
    ∧ (Counter.fresh.run64 sampleCalls).getRunningTotal
        = Dbl.fin (((incrementValues sampleCalls).map Dbl.toRat).sum) :=
  have h3 : ∀ s ∈ runningSums 0 ((incrementValues sampleCalls).map Dbl.toRat),
      Dbl.exact64 s := by
    intro s hs
    rw [show (incrementValues sampleCalls).map Dbl.toRat = [10, 5, 3, 4] from rfl] at hs
    simp only [runningSums, List.mem_cons, List.mem_nil_iff, or_false] at hs
    rcases hs with rfl | rfl | rfl | rfl
    · exact Dbl.exact64_of_int _ 10 (by norm_num) (by norm_num)
    · exact Dbl.exact64_of_int _ 15 (by norm_num) (by norm_num)
    · exact Dbl.exact64_of_int _ 18 (by norm_num) (by norm_num)
    · exact Dbl.exact64_of_int _ 22 (by norm_num) (by norm_num)
  ⟨by decide, by decide, h3,
   (C9_running_total_never_auto_reset Counter.fresh 1 (Dbl.fin 0) sampleCalls
      (by decide)).2.2.2 (by decide) h3⟩

/-! ## Claim C10: `incrementCounter` -/

namespace Dbl

theorem div_zero_divisor (x : Dbl) :
    div x (fin 0) = if x.isNaN || x.isZero then nan else signedInf x.signBit := by
  cases x with
  | nan => simp [div, isNaN]
  | pinf => simp [div, isNaN, isInf, isZero, signBit]
  | ninf => simp [div, isNaN, isInf, isZero, signBit]
  | nzero => simp [div, isNaN, isInf, isZero]
  | fin a =>
    by_cases ha : a = 0
    · simp [div, isNaN, isInf, isZero, ha]
    · simp [div, isNaN, isInf, isZero, signBit, ha]

theorem le_trans_zero (m r : Dbl) (h0 : le (fin 0) m = true) (h1 : le m r = true) :
    le (fin 0) r = true := by
  cases m <;> cases r <;> simp_all [le, isNaN, toRat]
  exact h0.trans h1

theorem add_le_add_nonneg (m r v : Dbl) (h0 : le (fin 0) m = true) (h1 : le m r = true)
    (hv : le (fin 0) v = true) :
    le (fin 0) (add m v) = true ∧ le (add m v) (add r v) = true := by
  cases m <;> cases r <;> cases v <;> simp_all [add, le, isNaN, toRat] <;>
    positivity

theorem div_nonneg_of_pos (m : Dbl) (b : ℚ) (h0 : le (fin 0) m = true) (hb : 0 < b) :
    le (fin 0) (div m (fin b)) = true := by
  have hb0 : b ≠ 0 := ne_of_gt hb
  have hb1 : ¬ b < 0 := not_lt.mpr hb.le
  cases m with
  | nan => simp [le, isNaN] at h0
  | pinf => simp [div, isNaN, isInf, signBit, signedInf, le, hb1]
  | ninf => simp [le, isNaN] at h0
  | nzero => simp [div, isNaN, isInf, isZero, signBit, signedZero, le, toRat, hb0, hb1]
  | fin a =>
    have ha : 0 ≤ a := by simpa [le, isNaN, toRat] using h0
    rw [div_fin_of_pos a b hb]
    simpa [le, isNaN, toRat] using div_nonneg ha hb.le

end Dbl

namespace Counter

/-- The two totals of a counter are ordered: `0 <= measureTotal` and
`measureTotal <= runningTotal`. -/
theorem totals_ordered_call (c : Counter) (op : CounterCall)
    (h0 : Dbl.le (Dbl.fin 0) c.measureTotal = true)
    (h1 : Dbl.le c.measureTotal c.runningTotal = true)
    (hop : op.nonnegative = true) :
    Dbl.le (Dbl.fin 0) (c.call op).measureTotal = true
    ∧ Dbl.le (c.call op).measureTotal (c.call op).runningTotal = true := by
  cases op with
  | increment v => exact Dbl.add_le_add_nonneg _ _ _ h0 h1 hop
  | reset => exact ⟨rfl, rfl⟩
  | getRatePerSecond => exact ⟨h0, h1⟩
  | getRunningTotal => exact ⟨h0, h1⟩
  | processRate p => exact ⟨rfl, Dbl.le_trans_zero _ _ h0 h1⟩

theorem totals_ordered_from (calls : List CounterCall) (c : Counter)
    (h0 : Dbl.le (Dbl.fin 0) c.measureTotal = true)
    (h1 : Dbl.le c.measureTotal c.runningTotal = true)
    (h : ∀ op ∈ calls, op.nonnegative = true) :
    Dbl.le (Dbl.fin 0) (c.run calls).measureTotal = true
    ∧ Dbl.le (c.run calls).measureTotal (c.run calls).runningTotal = true
    ∧ ∀ t ∈ c.ticks calls, 0 < t.1 → Dbl.le (Dbl.fin 0) t.2 = true := by
  induction calls generalizing c with
  | nil => exact ⟨h0, h1, by simp [ticks]⟩
  | cons op rest ih =>
    have hrest : ∀ op ∈ rest, op.nonnegative = true :=
      fun o ho => h o (List.mem_cons_of_mem _ ho)
    have hop : op.nonnegative = true := h op (List.mem_cons_self _ _)
    obtain ⟨g0, g1⟩ := totals_ordered_call c op h0 h1 hop
    obtain ⟨i0, i1, i2⟩ := ih (c.call op) g0 g1 hrest
    have step : c.run (op :: rest) = (c.call op).run rest := rfl
    rw [step]
    refine ⟨i0, i1, ?_⟩
    cases op with
    | increment v => exact i2
    | reset => exact i2
    | getRatePerSecond => exact i2
    | getRunningTotal => exact i2
    | processRate p =>
      intro t ht hpos
      simp only [ticks, List.mem_cons] at ht
      rcases ht with rfl | ht
      · simp only [processRate, timePeriodSeconds_eq]
        exact Dbl.div_nonneg_of_pos _ _ h0 (timePeriodSeconds_pos p hpos)
      · exact i2 t ht hpos

end Counter

/-- C14. Zero period is unguarded: for every counter state `processRate(0)`
returns normally, sets `measureTotal` to `0`, leaves `runningTotal` unchanged
and stores in `ratePerSecond` the quotient of the pending total by zero, which
is never finite: NaN when the pending total is a zero or NaN, and otherwise
the infinity with the sign of the pending total. -/
theorem C14_zero_period_unguarded (c : Counter) :
    (c.processRate 0).measureTotal = Dbl.fin 0
    ∧ (c.processRate 0).runningTotal = c.runningTotal
    ∧ (c.processRate 0).getRatePerSecond = Dbl.div c.measureTotal (Dbl.fin 0)
    ∧ (c.processRate 0).getRatePerSecond
        = (if c.measureTotal.isNaN || c.measureTotal.isZero then Dbl.nan
           else Dbl.signedInf c.measureTotal.signBit)
    ∧ (c.processRate 0).getRatePerSecond.isFinite = false
    ∧ ((c.processRate 0).getRatePerSecond.isNaN = true
        ∨ (c.processRate 0).getRatePerSecond.isInf = true) := by
  have ht : Counter.timePeriodSeconds 0 = Dbl.fin 0 := by
    rw [Counter.timePeriodSeconds_eq]; norm_num
  have hr : (c.processRate 0).getRatePerSecond = Dbl.div c.measureTotal (Dbl.fin 0) := by
    simp [Counter.getRatePerSecond, Counter.processRate, ht]
  refine ⟨rfl, rfl, hr, ?_, ?_, ?_⟩
  · rw [hr, Dbl.div_zero_divisor]
  · rw [hr, Dbl.div_zero_divisor]
    by_cases h : (c.measureTotal.isNaN || c.measureTotal.isZero) = true
    · rw [if_pos h]
      rfl
    · rw [if_neg h]
      cases c.measureTotal.signBit <;> rfl
  · rw [hr, Dbl.div_zero_divisor]
    by_cases h : (c.measureTotal.isNaN || c.measureTotal.isZero) = true
    · rw [if_pos h]
      exact Or.inl rfl
    · rw [if_neg h]
      refine Or.inr ?_
      cases c.measureTotal.signBit <;> rfl

/-- C15. `runningTotal >= measureTotal` is not an invariant: some sequence of
calls on a fresh counter ends in a state with `runningTotal < measureTotal`,
namely `increment(-1); processRate(1000000); increment(1)`, which ends with
`runningTotal == 0` and `measureTotal == 1`; and `reset` sets both totals to
zero together. -/
theorem C15_running_ge_measure_not_invariant :
    (∃ calls : List CounterCall,
        Dbl.lt (Counter.fresh.run calls).runningTotal (Counter.fresh.run calls).measureTotal
          = true)
    ∧ (Counter.fresh.run
        [.increment (Dbl.fin (-1)), .processRate 1000000, .increment (Dbl.fin 1)]).runningTotal
        = Dbl.fin 0
    ∧ (Counter.fresh.run
        [.increment (Dbl.fin (-1)), .processRate 1000000, .increment (Dbl.fin 1)]).measureTotal
        = Dbl.fin 1
    ∧ Dbl.le
        (Counter.fresh.run
          [.increment (Dbl.fin (-1)), .processRate 1000000,
           .increment (Dbl.fin 1)]).measureTotal
        (Counter.fresh.run
          [.increment (Dbl.fin (-1)), .processRate 1000000,
           .increment (Dbl.fin 1)]).runningTotal = false
    ∧ ∀ c : Counter, c.reset.runningTotal = Dbl.fin 0 ∧ c.reset.measureTotal = Dbl.fin 0 := by
  refine ⟨⟨[.increment (Dbl.fin (-1)), .processRate 1000000, .increment (Dbl.fin 1)], ?_⟩,
    ?_, ?_, ?_, fun c => ⟨rfl, rfl⟩⟩ <;> with_unfolding_all decide

/-- C16. Invariant for non-negative increments: in every state reached from a
fresh counter by `increment(v)` calls with `0 <= v`, `processRate` calls with
any period, `reset` calls and reads, `0 <= measureTotal` and
`measureTotal <= runningTotal` hold; and every rate computed on the way with a
period `P > 0` satisfies `0 <= ratePerSecond`. -/
theorem C16_totals_ordered (calls : List CounterCall)
    (h : ∀ op ∈ calls, op.nonnegative = true) :
    Dbl.le (Dbl.fin 0) (Counter.fresh.run calls).measureTotal = true
    ∧ Dbl.le (Counter.fresh.run calls).measureTotal (Counter.fresh.run calls).runningTotal
        = true
    ∧ ∀ t ∈ Counter.fresh.ticks calls, 0 < t.1 → Dbl.le (Dbl.fin 0) t.2 = true :=
  Counter.totals_ordered_from calls Counter.fresh (by with_unfolding_all decide)
    (by with_unfolding_all decide) h

/-- C16 at `sampleCalls`: the final pending total `4` lies between `0` and
the running total `22`, and the rate `7.5` of the first tick is `>= 0`. -/
theorem C16_totals_ordered_witness :
    (∀ op ∈ sampleCalls, op.nonnegative = true)
    ∧ Dbl.le (Counter.fresh.run sampleCalls).measureTotal
        (Counter.fresh.run sampleCalls).runningTotal = true
    ∧ ((2000000 : Int), Dbl.fin (15 / 2)) ∈ Counter.fresh.ticks sampleCalls
    ∧ Dbl.le (Dbl.fin 0) (Dbl.fin (15 / 2)) = true :=
  ⟨by with_unfolding_all decide,
   (C16_totals_ordered sampleCalls (by with_unfolding_all decide)).2.1,
   by with_unfolding_all decide,
   (C16_totals_ordered sampleCalls (by with_unfolding_all decide)).2.2
     ((2000000 : Int), Dbl.fin (15 / 2)) (by with_unfolding_all decide) (by decide)⟩


/-! ## Claims C12 and C17: one sampling pass -/

namespace World

theorem foldl_callAt_monitor (op : CounterCall) (ps : List Nat) (w : World) :
    (ps.foldl (fun w p => w.callAt p op) w).monitor = w.monitor := by
  induction ps generalizing w with
  | nil => rfl
  | cons p ps ih => rw [List.foldl_cons, ih]; rfl

theorem foldl_callAt_trace (op : CounterCall) (ps : List Nat) (w : World) :
    (ps.foldl (fun w p => w.callAt p op) w).trace = w.trace ++ ps.map (fun p => (p, op)) := by
  induction ps generalizing w with
  | nil => simp
  | cons p ps ih => rw [List.foldl_cons, ih]; simp [callAt]

/-- After the same call has been made at every address of a list, in order,
the counter at an address has received the call once per occurrence of the
address in the list. -/
theorem foldl_callAt_heap (op : CounterCall) (ps : List Nat) (w : World) (q : Nat) :
    (ps.foldl (fun w p => w.callAt p op) w).heap q
      = (fun c : Counter => c.call op)^[ps.count q] (w.heap q) := by
  induction ps generalizing w with
  | nil => simp
  | cons p ps ih =>
    rw [List.foldl_cons, ih]
    by_cases hpq : p = q
    · subst hpq
      simp [callAt, List.count_cons_self, Function.iterate_succ_apply]
    · have hne : (p == q) = false := by simpa using hpq
      simp [callAt, List.count_cons, hne, Function.update, Ne.symm hpq]

end World

namespace RateMonitor

theorem processRateLoop_eq (duration : Int) (fuel i : Nat) (w : World)
    (hfuel : w.monitor.counters.length ≤ fuel + i) :
    processRateLoop duration fuel i w
      = (w.monitor.counters.drop i).foldl (fun w p => w.callAt p (.processRate duration)) w := by
  induction fuel generalizing i w with
  | zero =>
    have : w.monitor.counters.drop i = [] := List.drop_eq_nil_of_le (by simpa using hfuel)
    simp [processRateLoop, this]
  | succ fuel ih =>
    by_cases h : i < w.monitor.counters.length
    · have hd : w.monitor.counters.drop i
          = w.monitor.counters.get ⟨i, h⟩ :: w.monitor.counters.drop (i + 1) :=
        List.drop_eq_getElem_cons h
      rw [processRateLoop, dif_pos h, hd, List.foldl_cons]
      exact ih (i + 1) _ (by simp only [World.callAt]; omega)
    · have : w.monitor.counters.drop i = [] := List.drop_eq_nil_of_le (not_lt.mp h)
      simp [processRateLoop, h, this]

theorem samplingPass_eq (w : World) (duration : Int) :
    samplingPass w duration
      = w.monitor.counters.foldl (fun w p => w.callAt p (.processRate duration)) w := by
  simpa [samplingPass] using processRateLoop_eq duration w.monitor.counters.length 0 w (by simp)

theorem samplingPass_heap (w : World) (duration : Int) (q : Nat) :
    (samplingPass w duration).heap q
      = (fun c : Counter => c.processRate duration)^[w.monitor.counters.count q] (w.heap q) := by
  rw [samplingPass_eq, World.foldl_callAt_heap]
  rfl

end RateMonitor

namespace World

theorem foldl_callAt64_monitor (op : CounterCall) (ps : List Nat) (w : World) :
    (ps.foldl (fun w p => w.callAt64 p op) w).monitor = w.monitor := by
  induction ps generalizing w with
  | nil => rfl
  | cons p ps ih => rw [List.foldl_cons, ih]; rfl

theorem foldl_callAt64_trace (op : CounterCall) (ps : List Nat) (w : World) :
    (ps.foldl (fun w p => w.callAt64 p op) w).trace
      = w.trace ++ ps.map (fun p => (p, op)) := by
  induction ps generalizing w with
  | nil => simp
  | cons p ps ih => rw [List.foldl_cons, ih]; simp [callAt64]

theorem foldl_callAt64_heap (op : CounterCall) (ps : List Nat) (w : World) (q : Nat) :
    (ps.foldl (fun w p => w.callAt64 p op) w).heap q
      = (fun c : Counter => c.call64 op)^[ps.count q] (w.heap q) := by
  induction ps generalizing w with
  | nil => simp
  | cons p ps ih =>
    rw [List.foldl_cons, ih]
    by_cases hpq : p = q
    · subst hpq
      simp [callAt64, List.count_cons_self, Function.iterate_succ_apply]
    · have hne : (p == q) = false := by simpa using hpq
      simp [callAt64, List.count_cons, hne, Function.update, Ne.symm hpq]

end World

namespace RateMonitor

theorem processRateLoop64_eq (duration : Int) (fuel i : Nat) (w : World)
    (hfuel : w.monitor.counters.length ≤ fuel + i) :
    processRateLoop64 duration fuel i w
      = (w.monitor.counters.drop i).foldl
          (fun w p => w.callAt64 p (.processRate duration)) w := by
  induction fuel generalizing i w with
  | zero =>
    have : w.monitor.counters.drop i = [] := List.drop_eq_nil_of_le (by simpa using hfuel)
    simp [processRateLoop64, this]
  | succ fuel ih =>
    by_cases h : i < w.monitor.counters.length
    · have hd : w.monitor.counters.drop i
          = w.monitor.counters.get ⟨i, h⟩ :: w.monitor.counters.drop (i + 1) :=
        List.drop_eq_getElem_cons h
      rw [processRateLoop64, dif_pos h, hd, List.foldl_cons]
      exact ih (i + 1) _ (by simp only [World.callAt64]; omega)
    · have : w.monitor.counters.drop i = [] := List.drop_eq_nil_of_le (not_lt.mp h)
      simp [processRateLoop64, h, this]

theorem samplingPass64_eq (w : World) (duration : Int) :
    samplingPass64 w duration
      = w.monitor.counters.foldl (fun w p => w.callAt64 p (.processRate duration)) w := by
  simpa [samplingPass64] using
    processRateLoop64_eq duration w.monitor.counters.length 0 w (by simp)

theorem samplingPass64_heap (w : World) (duration : Int) (q : Nat) :
    (samplingPass64 w duration).heap q
      = (fun c : Counter => c.processRate64 duration)^[w.monitor.counters.count q]
          (w.heap q) := by
  rw [samplingPass64_eq, World.foldl_callAt64_heap]
  rfl

end RateMonitor

/-- C12. Sampling tick, in binary64: one iteration of the sampling loop runs
the pass with the measured period `d`; the pass calls `processRate(d)` on
every entry of the counter list, in list order and with the same `d`, and
makes no other call; it leaves the list unchanged; and for pairwise distinct
registered counters and `d > 0`, after the pass each registered counter has
the rate `measureTotal / ((double)d / 1000000.0)` of its pending total before
the pass, the conversion and the divisions rounded (the exact quotient when
that total is finite and the conversion and both quotients are exact in
binary64), `measureTotal == 0` and its `runningTotal` unchanged, while every
other counter is untouched. -/
theorem C12_sampling_tick (ticksPerMicrosecond : Int) (clock : Nat → Int) (s : SamplerState)
    (w : World) (d : Int) (hd : 0 < d) (hnodup : w.monitor.counters.Nodup) :
    (RateMonitor.rateMonitorIteration64 ticksPerMicrosecond clock s).world
        = RateMonitor.samplingPass64 s.world
            (RateMonitor.durationMicroseconds ticksPerMicrosecond (clock s.reads) s.startTime)
    ∧ (RateMonitor.samplingPass64 w d).trace
        = w.trace ++ w.monitor.counters.map (fun p => (p, CounterCall.processRate d))
    ∧ (RateMonitor.samplingPass64 w d).monitor = w.monitor
    ∧ (∀ p ∈ w.monitor.counters,
        (RateMonitor.samplingPass64 w d).heap p = (w.heap p).processRate64 d
        ∧ ((RateMonitor.samplingPass64 w d).heap p).getRatePerSecond
            = Dbl.div64 (w.heap p).measureTotal (Dbl.div64 (Dbl.ofInt64 d) (Dbl.fin 1000000))
        ∧ (∀ m : ℚ, (w.heap p).measureTotal = Dbl.fin m →
            Dbl.exact64 (d : ℚ) → Dbl.exact64 ((d : ℚ) / 1000000) →
            Dbl.exact64 (m / ((d : ℚ) / 1000000)) →
            ((RateMonitor.samplingPass64 w d).heap p).getRatePerSecond
              = Dbl.fin (m / ((d : ℚ) / 1000000)))
        ∧ ((RateMonitor.samplingPass64 w d).heap p).measureTotal = Dbl.fin 0
        ∧ ((RateMonitor.samplingPass64 w d).heap p).runningTotal = (w.heap p).runningTotal)
    ∧ (∀ p, p ∉ w.monitor.counters → (RateMonitor.samplingPass64 w d).heap p = w.heap p) := by
  refine ⟨rfl, ?_, ?_, ?_, ?_⟩
  · rw [RateMonitor.samplingPass64_eq, World.foldl_callAt64_trace]
  · rw [RateMonitor.samplingPass64_eq, World.foldl_callAt64_monitor]
  · intro p hp
    have h : (RateMonitor.samplingPass64 w d).heap p = (w.heap p).processRate64 d := by
      rw [RateMonitor.samplingPass64_heap, List.count_eq_one_of_mem hnodup hp]
      rfl
    rw [h]
    refine ⟨rfl, rfl, ?_, rfl, rfl⟩
    intro m hm h1 h2 h3
    exact Counter.processRate64_exact (w.heap p) d m hd hm h1 h2 h3
  · intro p hp
    rw [RateMonitor.samplingPass64_heap, List.count_eq_zero.mpr hp]
    rfl

/-- C12 at `sampleWorldDistinct` and the period `2000000`: the pass calls
`processRate(2000000)` at `7`, `2`, `5` in this order, and the counter at `2`,
whose pending total was `2`, gets the rate `2 / 2 = 1`, every step exact. -/
theorem C12_sampling_tick_witness :
    (0 : Int) < 2000000 ∧ sampleWorldDistinct.monitor.counters.Nodup
    ∧ 2 ∈ sampleWorldDistinct.monitor.counters
    ∧ (RateMonitor.samplingPass64 sampleWorldDistinct 2000000).trace
        = [(7, CounterCall.processRate 2000000), (2, CounterCall.processRate 2000000),
           (5, CounterCall.processRate 2000000)]
    ∧ ((RateMonitor.samplingPass64 sampleWorldDistinct 2000000).heap 2).getRatePerSecond
        = Dbl.fin (((2 : Nat) : ℚ) / (((2000000 : Int) : ℚ) / 1000000)) :=
  ⟨by decide, by decide, by decide,
   (C12_sampling_tick 1000 sampleClock (RateMonitor.rateMonitorEntry sampleClock
      sampleWorldDistinct) sampleWorldDistinct 2000000 (by decide) (by decide)).2.1,
   ((C12_sampling_tick 1000 sampleClock (RateMonitor.rateMonitorEntry sampleClock
      sampleWorldDistinct) sampleWorldDistinct 2000000 (by decide) (by decide)).2.2.2.1
      2 (by decide)).2.2.1 ((2 : Nat) : ℚ) rfl
      (Dbl.exact64_of_int _ 2000000 (by norm_num) (by norm_num))
      (Dbl.exact64_of_int _ 2 (by norm_num) (by norm_num))
      (Dbl.exact64_of_int _ 1 (by norm_num) (by norm_num))⟩

/-- C17. Duplicate registration: `registerCounter` appends the counter also
when it is already in the list, which then holds it once more; and when a
counter occurs more than once in the list, one sampling pass with a period
`d > 0` calls `processRate(d)` on it once per occurrence, so that whatever its
pending total was, its `ratePerSecond` after the pass is `0`. -/
theorem C17_duplicate_registration (w : World) (p : Nat) (d : Int) (hd : 0 < d)
    (hdup : 2 ≤ w.monitor.counters.count p) :
    (RateMonitor.registerCounter w p).monitor.counters = w.monitor.counters ++ [p]
    ∧ (RateMonitor.registerCounter w p).monitor.counters.count p
        = w.monitor.counters.count p + 1
    ∧ (RateMonitor.samplingPass w d).trace
        = w.trace ++ w.monitor.counters.map (fun q => (q, CounterCall.processRate d))
    ∧ (RateMonitor.samplingPass w d).heap p
        = (fun c : Counter => c.processRate d)^[w.monitor.counters.count p] (w.heap p)
    ∧ ((RateMonitor.samplingPass w d).heap p).getRatePerSecond = Dbl.fin 0 := by
  refine ⟨rfl, ?_, ?_, RateMonitor.samplingPass_heap w d p, ?_⟩
  · simp [RateMonitor.registerCounter]
  · rw [RateMonitor.samplingPass_eq, World.foldl_callAt_trace]
  · obtain ⟨n, hn⟩ : ∃ n, w.monitor.counters.count p = n + 2 :=
      ⟨w.monitor.counters.count p - 2, by omega⟩
    rw [RateMonitor.samplingPass_heap, hn, Function.iterate_succ_apply',
      Function.iterate_succ_apply']
    have h := Counter.processRate_zero_pending
      (((fun c : Counter => c.processRate d)^[n] (w.heap p)).processRate d) rfl d
    simpa [Counter.getRatePerSecond, hd] using h

/-- C17 at `sampleWorld`, whose list `7, 2, 7` holds address `7` twice, and
the period `1000000`: the rate of the counter at `7`, whose pending total was
`3`, is `0` after the pass. -/
theorem C17_duplicate_registration_witness :
    (0 : Int) < 1000000 ∧ 2 ≤ sampleWorld.monitor.counters.count 7
    ∧ (sampleWorld.heap 7).measureTotal = Dbl.fin 3
    ∧ (RateMonitor.samplingPass sampleWorld 1000000).trace
        = [(7, CounterCall.processRate 1000000), (2, CounterCall.processRate 1000000),
           (7, CounterCall.processRate 1000000)]
    ∧ ((RateMonitor.samplingPass sampleWorld 1000000).heap 7).getRatePerSecond = Dbl.fin 0 :=
  ⟨by decide, by decide, rfl,
   (C17_duplicate_registration sampleWorld 7 1000000 (by decide) (by decide)).2.2.1,
   (C17_duplicate_registration sampleWorld 7 1000000 (by decide) (by decide)).2.2.2.2⟩

/-! ## Claim C13: the timing of the sampling loop -/

theorem passDurations_append (a b : List SamplerEvent) :
    passDurations (a ++ b) = passDurations a ++ passDurations b := by
  induction a with
  | nil => rfl
  | cons e a ih => cases e <;> simp [passDurations, ih]

namespace RateMonitor

theorem durationMicroseconds_bounds (ticksPerMicrosecond endTime startTime : Int)
    (htpm : 0 < ticksPerMicrosecond) (h : startTime ≤ endTime) :
    0 ≤ durationMicroseconds ticksPerMicrosecond endTime startTime
    ∧ ticksPerMicrosecond * durationMicroseconds ticksPerMicrosecond endTime startTime
        ≤ endTime - startTime := by
  have hx : 0 ≤ endTime - startTime := by omega
  unfold durationMicroseconds
  rw [Int.tdiv_eq_ediv hx htpm.le]
  exact ⟨Int.ediv_nonneg hx htpm.le, Int.mul_ediv_self_le (ne_of_gt htpm)⟩

/-- The locals of the sampling thread after `n` iterations: it has read the
clock `2n + 2` times, `endTime` is reading `2n` and `startTime` is reading
`2n + 1`. -/
theorem rateMonitorFunction_locals (ticksPerMicrosecond : Int) (clock : Nat → Int) (w : World)
    (n : Nat) :
    (rateMonitorFunction ticksPerMicrosecond clock w n).reads = 2 * n + 2
    ∧ (rateMonitorFunction ticksPerMicrosecond clock w n).endTime = clock (2 * n)
    ∧ (rateMonitorFunction ticksPerMicrosecond clock w n).startTime = clock (2 * n + 1) := by
  induction n with
  | zero => exact ⟨rfl, rfl, rfl⟩
  | succ n ih =>
    obtain ⟨h1, _, _⟩ := ih
    simp only [rateMonitorFunction, rateMonitorIteration, h1]
    refine ⟨by ring, ?_, ?_⟩
    · congr 1
    · congr 1

theorem rateMonitorFunction_events (ticksPerMicrosecond : Int) (clock : Nat → Int) (w : World)
    (n : Nat) :
    (rateMonitorFunction ticksPerMicrosecond clock w n).events
      = [SamplerEvent.now (clock 0), SamplerEvent.now (clock 1), SamplerEvent.sleep 1]
        ++ (List.range n).flatMap (fun j =>
            [SamplerEvent.now (clock (2 * j + 2)), SamplerEvent.now (clock (2 * j + 3)),
             SamplerEvent.pass
               (durationMicroseconds ticksPerMicrosecond (clock (2 * j + 2)) (clock (2 * j + 1))),
             SamplerEvent.sleep 1]) := by
  induction n with
  | zero => simp [rateMonitorFunction, rateMonitorEntry]
  | succ n ih =>
    obtain ⟨h1, _, h3⟩ := rateMonitorFunction_locals ticksPerMicrosecond clock w n
    simp only [rateMonitorFunction, rateMonitorIteration, h1, h3, ih]
    simp [List.range_succ]

theorem rateMonitorFunction_durations (ticksPerMicrosecond : Int) (clock : Nat → Int)
    (w : World) (n : Nat) :
    passDurations (rateMonitorFunction ticksPerMicrosecond clock w n).events
      = (List.range n).map (fun j =>
          durationMicroseconds ticksPerMicrosecond (clock (2 * j + 2)) (clock (2 * j + 1))) := by
  induction n with
  | zero => simp [rateMonitorFunction, rateMonitorEntry, passDurations]
  | succ n ih =>
    obtain ⟨h1, _, h3⟩ := rateMonitorFunction_locals ticksPerMicrosecond clock w n
    simp only [rateMonitorFunction, rateMonitorIteration, h1, h3, passDurations_append, ih]
    simp [List.range_succ, passDurations]

theorem rateMonitorFunction_sum_le (ticksPerMicrosecond : Int) (clock : Nat → Int) (w : World)
    (n : Nat) (htpm : 0 < ticksPerMicrosecond) (hclock : ∀ i, clock i ≤ clock (i + 1)) :
    ticksPerMicrosecond
        * (passDurations (rateMonitorFunction ticksPerMicrosecond clock w (n + 1)).events).sum
      ≤ clock (2 * (n + 1)) - clock 1 := by
  induction n with
  | zero =>
    have hb := durationMicroseconds_bounds ticksPerMicrosecond (clock 2) (clock 1) htpm (hclock 1)
    rw [rateMonitorFunction_durations]
    simpa [List.range_succ] using hb.2
  | succ n ih =>
    have hb := durationMicroseconds_bounds ticksPerMicrosecond (clock (2 * (n + 1) + 2))
      (clock (2 * (n + 1) + 1)) htpm (hclock _)
    have hstep : clock (2 * (n + 1)) ≤ clock (2 * (n + 1) + 1) := hclock _
    rw [rateMonitorFunction_durations] at ih ⊢
    rw [List.range_succ, List.map_append, List.sum_append, mul_add]
    simp only [List.map_cons, List.map_nil, List.sum_cons, List.sum_nil, add_zero]
    have h2 : 2 * (n + 1 + 1) = 2 * (n + 1) + 2 := by ring
    rw [h2]
    linarith [hb.2]

end RateMonitor

/-- C13. Sampling-loop timing law.  Write `endTime_k` and `startTime_k` for
the locals after iteration `k`, with `startTime_0` read at loop entry.  The
thread reads the clock twice at entry and sleeps; iteration `k >= 1` reads
`endTime_k`, then `startTime_k`, then runs the `processRate` pass, then
sleeps.  The period of that pass is `endTime_k - startTime_(k-1)` converted to
whole microseconds, so it spans the pass and the sleep of the previous
iteration.  For a positive number of ticks per microsecond and a
non-decreasing clock every period is `>= 0`, and the first `n >= 1` periods
add up to at most `endTime_n - startTime_0`. -/
theorem C13_sampling_loop_timing (ticksPerMicrosecond : Int) (clock : Nat → Int) (w : World)
    (n : Nat) (htpm : 0 < ticksPerMicrosecond) (hclock : ∀ i, clock i ≤ clock (i + 1)) :
    (RateMonitor.rateMonitorFunction ticksPerMicrosecond clock w n).endTime = clock (2 * n)
    ∧ (RateMonitor.rateMonitorFunction ticksPerMicrosecond clock w n).startTime
        = clock (2 * n + 1)
    ∧ (RateMonitor.rateMonitorFunction ticksPerMicrosecond clock w (n + 1)).world
        = RateMonitor.samplingPass
            (RateMonitor.rateMonitorFunction ticksPerMicrosecond clock w n).world
            (RateMonitor.durationMicroseconds ticksPerMicrosecond
              (RateMonitor.rateMonitorFunction ticksPerMicrosecond clock w (n + 1)).endTime
              (RateMonitor.rateMonitorFunction ticksPerMicrosecond clock w n).startTime)
    ∧ (RateMonitor.rateMonitorFunction ticksPerMicrosecond clock w n).events
        = [SamplerEvent.now (clock 0), SamplerEvent.now (clock 1), SamplerEvent.sleep 1]
          ++ (List.range n).flatMap (fun j =>
              [SamplerEvent.now (clock (2 * j + 2)), SamplerEvent.now (clock (2 * j + 3)),
               SamplerEvent.pass
                 (Int.tdiv (clock (2 * j + 2) - clock (2 * j + 1)) ticksPerMicrosecond),
               SamplerEvent.sleep 1])
    ∧ passDurations (RateMonitor.rateMonitorFunction ticksPerMicrosecond clock w n).events
        = (List.range n).map (fun j =>
            Int.tdiv (clock (2 * j + 2) - clock (2 * j + 1)) ticksPerMicrosecond)
    ∧ (∀ d ∈ passDurations (RateMonitor.rateMonitorFunction ticksPerMicrosecond clock w n).events,
        0 ≤ d)
    ∧ (1 ≤ n →
        ticksPerMicrosecond
          * (passDurations
              (RateMonitor.rateMonitorFunction ticksPerMicrosecond clock w n).events).sum
          ≤ (RateMonitor.rateMonitorFunction ticksPerMicrosecond clock w n).endTime
            - clock 1) := by
  obtain ⟨_, h2, h3⟩ := RateMonitor.rateMonitorFunction_locals ticksPerMicrosecond clock w n
  refine ⟨h2, h3, rfl, RateMonitor.rateMonitorFunction_events ticksPerMicrosecond clock w n,
    RateMonitor.rateMonitorFunction_durations ticksPerMicrosecond clock w n, ?_, ?_⟩
  · intro d hd
    rw [RateMonitor.rateMonitorFunction_durations] at hd
    obtain ⟨j, _, rfl⟩ := List.mem_map.mp hd
    exact (RateMonitor.durationMicroseconds_bounds ticksPerMicrosecond _ _ htpm (hclock _)).1
  · intro hn
    obtain ⟨m, rfl⟩ : ∃ m, n = m + 1 := ⟨n - 1, by omega⟩
    rw [h2]
    exact RateMonitor.rateMonitorFunction_sum_le ticksPerMicrosecond clock w m htpm hclock

/-- C13 at `sampleClock`, a nanosecond clock (`1000` ticks per microsecond)
and three iterations: each period is `1000000` microseconds, and the three
periods add up to `3000000`, below the `5000004` microseconds between
`startTime_0` and `endTime_3`. -/
theorem C13_sampling_loop_timing_witness :
    (0 : Int) < 1000 ∧ (∀ i, sampleClock i ≤ sampleClock (i + 1)) ∧ 1 ≤ 3
    ∧ passDurations (RateMonitor.rateMonitorFunction 1000 sampleClock sampleWorld 3).events
        = [1000000, 1000000, 1000000]
    ∧ 1000 * (passDurations
          (RateMonitor.rateMonitorFunction 1000 sampleClock sampleWorld 3).events).sum
        ≤ (RateMonitor.rateMonitorFunction 1000 sampleClock sampleWorld 3).endTime
          - sampleClock 1 :=
  ⟨by decide, fun i => by simp [sampleClock], by decide, by decide,
   (C13_sampling_loop_timing 1000 sampleClock sampleWorld 3 (by decide)
      (fun i => by simp [sampleClock])).2.2.2.2.2.2 (by decide)⟩

/-! ## Claim C11: concurrent increments lose no update -/

theorem sum_map_set_nat {α : Type} (f : α → Nat) (l : List α) (t : Nat) (x y : α)
    (h : l[t]? = some y) : ((l.set t x).map f).sum + f y = (l.map f).sum + f x := by
  induction l generalizing t with
  | nil => simp at h
  | cons a l ih =>
    cases t with
    | zero =>
      have ha : a = y := by simpa using h
      subst ha
      simp only [List.set_cons_zero, List.map_cons, List.sum_cons]
      omega
    | succ t =>
      have ht : l[t]? = some y := by simpa using h
      have := ih t ht
      simp only [List.set_cons_succ, List.map_cons, List.sum_cons]
      omega

theorem sum_map_set_lt {α : Type} (f : α → Nat) (l : List α) (t : Nat) (x y : α)
    (h : l[t]? = some y) (hlt : f x < f y) : ((l.set t x).map f).sum < (l.map f).sum := by
  induction l generalizing t with
  | nil => simp at h
  | cons a l ih =>
    cases t with
    | zero =>
      have ha : a = y := by simpa using h
      subst ha
      simpa using hlt
    | succ t =>
      have ht : l[t]? = some y := by simpa using h
      simpa using ih t ht

theorem getElem?_set_cases {α : Type} (l : List α) (t i : Nat) (x z : α)
    (h : (l.set t x)[i]? = some z) : (i = t ∧ z = x) ∨ (i ≠ t ∧ l[i]? = some z) := by
  rw [List.getElem?_set] at h
  by_cases hti : t = i
  · subst hti
    by_cases hlt : t < l.length
    · simp [hlt] at h
      exact Or.inl ⟨rfl, h.symm⟩
    · simp [hlt] at h
  · simp [hti] at h
    exact Or.inr ⟨fun e => hti e.symm, h⟩

namespace Concurrent

/-- The invariant survives a move of thread `t` when no other thread holds the
lock and the new thread state, lock and counter fit together. -/
theorem inv_update (k : Nat) (s s' : Concurrent) (t : Nat) (th th' : IncrementThread)
    (hinv : Inv k s) (hth : s.threads[t]? = some th)
    (hlock : ∀ i, s.incrementLock = some i → i = t)
    (hthreads : s'.threads = s.threads.set t th')
    (ha : th'.calls ≤ k)
    (hb : ∀ total : Nat, total + added th = (s.threads.map added).sum + added th' →
      s'.counter.runningTotal = Dbl.fin ((min total (2 ^ 53) : ℕ) : ℚ))
    (hd : th'.point ≠ .lock → s'.incrementLock = some t ∧ th'.calls < k)
    (he : th'.point = .lock → s'.incrementLock = none)
    (hf : th'.point = .storeRunning → th'.register = s'.counter.runningTotal) :
    Inv k s' := by
  obtain ⟨hA, _, hC, _, _⟩ := hinv
  have hother : ∀ i z, i ≠ t → s.threads[i]? = some z → z.point = .lock := by
    intro i z hit hz
    by_contra hp
    exact hit (hlock i (hC i z hz hp).1)
  refine ⟨?_, ?_, ?_, ?_, ?_⟩
  · intro z hz
    rw [hthreads] at hz
    rcases List.mem_or_eq_of_mem_set hz with hz | hz
    · exact hA z hz
    · rw [hz]; exact ha
  · rw [hthreads]
    exact hb _ (sum_map_set_nat _ _ _ _ _ hth)
  · intro i z hz hp
    rw [hthreads] at hz
    rcases getElem?_set_cases _ _ _ _ _ hz with ⟨hi, hzx⟩ | ⟨hi, hzl⟩
    · subst hi; subst hzx
      exact hd hp
    · exact absurd (hother i z hi hzl) hp
  · intro i hi
    have hp : th'.point ≠ .lock := by
      intro hp
      rw [he hp] at hi
      exact Option.noConfusion hi
    have hit : i = t := by
      have := (hd hp).1
      rw [this] at hi
      exact (Option.some.inj hi).symm
    subst hit
    refine ⟨th', ?_, hp⟩
    have hlt : i < s.threads.length := by
      by_contra hge
      rw [List.getElem?_eq_none (not_lt.mp hge)] at hth
      exact Option.noConfusion hth
    rw [hthreads, List.getElem?_set]
    simp [hlt]
  · intro i z hz hp
    rw [hthreads] at hz
    rcases getElem?_set_cases _ _ _ _ _ hz with ⟨hi, hzx⟩ | ⟨hi, hzl⟩
    · subst hi; subst hzx
      exact hf hp
    · have := hother i z hi hzl
      rw [this] at hp
      exact IncrementPoint.noConfusion hp

end Concurrent

namespace Concurrent

/-- A thread inside `increment` is the holder of the lock. -/
theorem lock_of_inside (k : Nat) (s : Concurrent) (t : Nat) (th : IncrementThread)
    (hinv : Inv k s) (hth : s.threads[t]? = some th) (hp : th.point ≠ IncrementPoint.lock) :
    ∀ i, s.incrementLock = some i → i = t := by
  intro i hi
  have := (hinv.2.2.1 t th hth hp).1
  rw [this] at hi
  exact (Option.some.inj hi).symm

theorem total_of_same_added (total sum a b : Nat) (h : total + a = sum + b) (hab : b = a) :
    total = sum := by
  omega

/-- Every step of every thread preserves the invariant. -/
theorem inv_step (k : Nat) (s : Concurrent) (t : Nat) (hinv : Inv k s) :
    Inv k (step k (Dbl.fin 1) s t) := by
  unfold step
  cases hth : s.threads[t]? with
  | none => exact hinv
  | some th =>
    dsimp only
    by_cases hk : k ≤ th.calls
    · rw [if_pos hk]; exact hinv
    · rw [if_neg hk]
      have hk' : th.calls < k := by omega
      have hB := hinv.2.1
      cases hp : th.point with
      | lock =>
        dsimp only
        cases hl : s.incrementLock with
        | some o => exact hinv
        | none =>
          dsimp only
          refine inv_update k s _ t th _ hinv hth ?_ rfl ?_ ?_ ?_ ?_ ?_
          · intro i hi; rw [hl] at hi; exact Option.noConfusion hi
          · exact hk'.le
          · intro total htot
            rw [total_of_same_added _ _ _ _ htot (by simp [added, hp]), hB]
          · intro _; exact ⟨rfl, hk'⟩
          · intro h; exact IncrementPoint.noConfusion h
          · intro h; exact IncrementPoint.noConfusion h
      | loadRunning =>
        dsimp only
        have hin : th.point ≠ IncrementPoint.lock := by rw [hp]; exact fun h => nomatch h
        have hown := (hinv.2.2.1 t th hth hin).1
        refine inv_update k s _ t th _ hinv hth (lock_of_inside k s t th hinv hth hin) rfl
          ?_ ?_ ?_ ?_ ?_
        · exact hk'.le
        · intro total htot
          rw [total_of_same_added _ _ _ _ htot (by simp [added, hp]), hB]
        · intro _; exact ⟨hown, hk'⟩
        · intro h; exact IncrementPoint.noConfusion h
        · intro _; rfl
      | storeRunning =>
        dsimp only
        have hin : th.point ≠ IncrementPoint.lock := by rw [hp]; exact fun h => nomatch h
        have hown := (hinv.2.2.1 t th hth hin).1
        have hreg := hinv.2.2.2.2 t th hth hp
        refine inv_update k s _ t th _ hinv hth (lock_of_inside k s t th hinv hth hin) rfl
          ?_ ?_ ?_ ?_ ?_
        · exact hk'.le
        · intro total htot
          have htotal : total = (s.threads.map added).sum + 1 := by
            simp only [added, hp] at htot
            omega
          rw [htotal]
          simp only [hreg, hB]
          exact Dbl.add64_count _
        · intro _; exact ⟨hown, hk'⟩
        · intro h; exact IncrementPoint.noConfusion h
        · intro h; exact IncrementPoint.noConfusion h
      | loadMeasure =>
        dsimp only
        have hin : th.point ≠ IncrementPoint.lock := by rw [hp]; exact fun h => nomatch h
        have hown := (hinv.2.2.1 t th hth hin).1
        refine inv_update k s _ t th _ hinv hth (lock_of_inside k s t th hinv hth hin) rfl
          ?_ ?_ ?_ ?_ ?_
        · exact hk'.le
        · intro total htot
          rw [total_of_same_added _ _ _ _ htot (by simp [added, hp]), hB]
        · intro _; exact ⟨hown, hk'⟩
        · intro h; exact IncrementPoint.noConfusion h
        · intro h; exact IncrementPoint.noConfusion h
      | storeMeasure =>
        dsimp only
        have hin : th.point ≠ IncrementPoint.lock := by rw [hp]; exact fun h => nomatch h
        have hown := (hinv.2.2.1 t th hth hin).1
        refine inv_update k s _ t th _ hinv hth (lock_of_inside k s t th hinv hth hin) rfl
          ?_ ?_ ?_ ?_ ?_
        · exact hk'.le
        · intro total htot
          rw [total_of_same_added _ _ _ _ htot (by simp [added, hp]), hB]
        · intro _; exact ⟨hown, hk'⟩
        · intro h; exact IncrementPoint.noConfusion h
        · intro h; exact IncrementPoint.noConfusion h
      | unlock =>
        dsimp only
        have hin : th.point ≠ IncrementPoint.lock := by rw [hp]; exact fun h => nomatch h
        refine inv_update k s _ t th _ hinv hth (lock_of_inside k s t th hinv hth hin) rfl
          ?_ ?_ ?_ ?_ ?_
        · exact hk'
        · intro total htot
          have htotal : total = (s.threads.map added).sum := by
            simp only [added, hp] at htot
            omega
          rw [htotal, hB]
        · intro h; exact absurd rfl h
        · intro _; rfl
        · intro h; exact IncrementPoint.noConfusion h

end Concurrent

namespace Concurrent

theorem inv_init (n k : Nat) : Inv k (init n) := by
  refine ⟨?_, ?_, ?_, ?_, ?_⟩
  · intro th hth
    rw [init, List.mem_replicate] at hth
    rw [hth.2]
    exact Nat.zero_le k
  · have hsum : ((init n).threads.map added).sum = 0 := by
      simp [init, added]
    rw [hsum]
    simp [init, Counter.fresh]
  · intro i th hth hp
    have hmem : th ∈ (init n).threads := List.getElem?_mem hth
    rw [init, List.mem_replicate] at hmem
    rw [hmem.2] at hp
    exact absurd rfl hp
  · intro i hi
    exact Option.noConfusion hi
  · intro i th hth hp
    have hmem : th ∈ (init n).threads := List.getElem?_mem hth
    rw [init, List.mem_replicate] at hmem
    rw [hmem.2] at hp
    exact IncrementPoint.noConfusion hp

theorem inv_run (k : Nat) (schedule : List Nat) (s : Concurrent) (hinv : Inv k s) :
    Inv k (run k (Dbl.fin 1) s schedule) := by
  induction schedule generalizing s with
  | nil => exact hinv
  | cons t rest ih => exact ih (step k (Dbl.fin 1) s t) (inv_step k s t hinv)

theorem step_length (k : Nat) (value : Dbl) (s : Concurrent) (t : Nat) :
    (step k value s t).threads.length = s.threads.length := by
  unfold step
  cases s.threads[t]? with
  | none => rfl
  | some th =>
    dsimp only
    by_cases hk : k ≤ th.calls
    · rw [if_pos hk]
    · rw [if_neg hk]
      cases th.point with
      | lock =>
        dsimp only
        cases s.incrementLock with
        | none => simp
        | some o => rfl
      | loadRunning => simp
      | storeRunning => simp
      | loadMeasure => simp
      | storeMeasure => simp
      | unlock => simp

theorem run_length (k : Nat) (value : Dbl) (schedule : List Nat) (s : Concurrent) :
    (run k value s schedule).threads.length = s.threads.length := by
  induction schedule generalizing s with
  | nil => rfl
  | cons t rest ih =>
    have h : run k value s (t :: rest) = run k value (step k value s t) rest := rfl
    rw [h, ih, step_length]

theorem sum_added_of_all (k : Nat) (l : List IncrementThread)
    (h : ∀ th ∈ l, added th = k) : (l.map added).sum = l.length * k := by
  induction l with
  | nil => simp
  | cons a l ih =>
    have ha : added a = k := h a (List.mem_cons_self _ _)
    have hl : ∀ th ∈ l, added th = k := fun th hth => h th (List.mem_cons_of_mem _ hth)
    simp only [List.map_cons, List.sum_cons, ih hl, ha, List.length_cons]
    ring

/-- In a state of the invariant in which every thread has completed its calls,
`runningTotal` is the number of threads times the number of calls, or `2^53`
when that number is larger. -/
theorem runningTotal_of_finished (k : Nat) (s : Concurrent) (hinv : Inv k s)
    (hfin : finished k s = true) :
    s.counter.runningTotal = Dbl.fin ((min (s.threads.length * k) (2 ^ 53) : ℕ) : ℚ) := by
  obtain ⟨hA, hB, hC, _, _⟩ := hinv
  rw [hB, sum_added_of_all k s.threads]
  intro th hth
  have hk : k ≤ th.calls := by
    have := List.all_eq_true.mp hfin th hth
    simpa using this
  have hcalls : th.calls = k := le_antisymm (hA th hth) hk
  have hp : th.point = IncrementPoint.lock := by
    by_contra hp
    obtain ⟨i, hi⟩ := List.getElem?_of_mem hth
    have := (hC i th hi hp).2
    omega
  simp [added, hp, hcalls]

end Concurrent

namespace Concurrent

/-- A step of a thread that has calls left and is not waiting for the lock
reduces the work that is left. -/
theorem step_workLeft (k : Nat) (value : Dbl) (s : Concurrent) (t : Nat) (th : IncrementThread)
    (hth : s.threads[t]? = some th) (hk : th.calls < k)
    (hen : th.point = IncrementPoint.lock → s.incrementLock = none) :
    workLeft k (step k value s t) < workLeft k s := by
  unfold step workLeft
  rw [hth]
  dsimp only
  rw [if_neg (by omega)]
  cases hp : th.point with
  | lock =>
    dsimp only
    rw [hen hp]
    dsimp only
    refine sum_map_set_lt _ _ _ _ th hth ?_
    simp only [stepsLeft, hp]
    omega
  | loadRunning =>
    dsimp only
    refine sum_map_set_lt _ _ _ _ th hth ?_
    simp only [stepsLeft, hp]
    omega
  | storeRunning =>
    dsimp only
    refine sum_map_set_lt _ _ _ _ th hth ?_
    simp only [stepsLeft, hp]
    omega
  | loadMeasure =>
    dsimp only
    refine sum_map_set_lt _ _ _ _ th hth ?_
    simp only [stepsLeft, hp]
    omega
  | storeMeasure =>
    dsimp only
    refine sum_map_set_lt _ _ _ _ th hth ?_
    simp only [stepsLeft, hp]
    omega
  | unlock =>
    dsimp only
    refine sum_map_set_lt _ _ _ _ th hth ?_
    simp only [stepsLeft, hp]
    omega

/-- No deadlock: while some thread has calls left, some thread can make a step
that reduces the work that is left. -/
theorem progress (k : Nat) (s : Concurrent) (hinv : Inv k s) (hfin : finished k s = false) :
    ∃ t, workLeft k (step k (Dbl.fin 1) s t) < workLeft k s := by
  obtain ⟨_, _, hC, hD, _⟩ := hinv
  cases hl : s.incrementLock with
  | some o =>
    obtain ⟨th, hth, hp⟩ := hD o hl
    exact ⟨o, step_workLeft k _ s o th hth (hC o th hth hp).2 (fun h => absurd h hp)⟩
  | none =>
    have hex : ∃ th ∈ s.threads, ¬ k ≤ th.calls := by
      by_contra hno
      push_neg at hno
      have : finished k s = true := by
        rw [finished, List.all_eq_true]
        intro th hth
        simpa using hno th hth
      rw [this] at hfin
      exact Bool.noConfusion hfin
    obtain ⟨th, hmem, hk⟩ := hex
    obtain ⟨t, hth⟩ := List.getElem?_of_mem hmem
    exact ⟨t, step_workLeft k _ s t th hth (by omega) (fun _ => hl)⟩

/-- Every state of the invariant can be driven to a state in which every
thread has completed its calls. -/
theorem exists_completion (k : Nat) (bound : Nat) (s : Concurrent) (hinv : Inv k s)
    (hbound : workLeft k s ≤ bound) :
    ∃ ext, finished k (run k (Dbl.fin 1) s ext) = true := by
  induction bound generalizing s with
  | zero =>
    cases hfin : finished k s with
    | true => exact ⟨[], hfin⟩
    | false =>
      obtain ⟨t, ht⟩ := progress k s hinv hfin
      omega
  | succ bound ih =>
    cases hfin : finished k s with
    | true => exact ⟨[], hfin⟩
    | false =>
      obtain ⟨t, ht⟩ := progress k s hinv hfin
      obtain ⟨ext, hext⟩ := ih (step k (Dbl.fin 1) s t) (inv_step k s t hinv) (by omega)
      exact ⟨t :: ext, hext⟩

theorem run_append (k : Nat) (value : Dbl) (s : Concurrent) (a b : List Nat) :
    run k value s (a ++ b) = run k value (run k value s a) b := by
  simp [run, List.foldl_append]

end Concurrent

/-- C11, as stated, fails on the code: one thread that calls `increment(1)`
`2^53 + 2` times on a fresh counter completes its calls with
`getRunningTotal() == 2^53`, not `2^53 + 2`, because binary64 absorbs the
addition of `1` to `2^53`. -/
theorem C11_lost_update_counterexample :
    ∃ schedule : List Nat,
      Concurrent.finished (2 ^ 53 + 2)
          (Concurrent.run (2 ^ 53 + 2) (Dbl.fin 1) (Concurrent.init 1) schedule) = true
      ∧ (Concurrent.run (2 ^ 53 + 2) (Dbl.fin 1) (Concurrent.init 1)
            schedule).counter.getRunningTotal = Dbl.fin ((2 ^ 53 : ℕ) : ℚ)
      ∧ Dbl.eq (Dbl.fin ((2 ^ 53 : ℕ) : ℚ)) (Dbl.fin ((1 * (2 ^ 53 + 2) : ℕ) : ℚ)) = false := by
  obtain ⟨ext, hext⟩ := Concurrent.exists_completion (2 ^ 53 + 2) _ (Concurrent.init 1)
    (Concurrent.inv_init 1 (2 ^ 53 + 2)) (le_refl _)
  have hinv := Concurrent.inv_run (2 ^ 53 + 2) ext (Concurrent.init 1)
    (Concurrent.inv_init 1 (2 ^ 53 + 2))
  have h := Concurrent.runningTotal_of_finished _ _ hinv hext
  rw [Concurrent.run_length] at h
  refine ⟨ext, hext, ?_, ?_⟩
  · rw [Counter.getRunningTotal, h]
    simp [Concurrent.init]
  · simp [Dbl.eq, Dbl.isNaN, Dbl.isZero]

/-- C11, amended.  Lost-update freedom up to `2^53`: for all `N` and `K`,
when `N` threads each call `increment(1)` exactly `K` times on the same fresh
counter whose lock is initialised, then under every interleaving of their
steps, once every thread has completed its calls `getRunningTotal()` is the
smaller of `N*K` and `2^53`, hence `N*K` whenever `N*K <= 2^53`; and every
interleaving can be continued until every thread has completed its calls
(nothing deadlocks).  Each `+=` is a separate load and store; it is the lock
that keeps a store from overwriting the addition of another thread. -/
theorem C11_lost_update_freedom (n k : Nat) (schedule : List Nat) :
    (Concurrent.finished k (Concurrent.run k (Dbl.fin 1) (Concurrent.init n) schedule) = true →
      (Concurrent.run k (Dbl.fin 1) (Concurrent.init n) schedule).counter.getRunningTotal
        = Dbl.fin ((min (n * k) (2 ^ 53) : ℕ) : ℚ))
    ∧ (Concurrent.finished k (Concurrent.run k (Dbl.fin 1) (Concurrent.init n) schedule) = true →
      n * k ≤ 2 ^ 53 →
      (Concurrent.run k (Dbl.fin 1) (Concurrent.init n) schedule).counter.getRunningTotal
        = Dbl.fin ((n * k : ℕ) : ℚ))
    ∧ (∃ ext, Concurrent.finished k
        (Concurrent.run k (Dbl.fin 1) (Concurrent.init n) (schedule ++ ext)) = true) := by
  have hinv := Concurrent.inv_run k schedule (Concurrent.init n) (Concurrent.inv_init n k)
  have hmain : Concurrent.finished k
      (Concurrent.run k (Dbl.fin 1) (Concurrent.init n) schedule) = true →
      (Concurrent.run k (Dbl.fin 1) (Concurrent.init n) schedule).counter.getRunningTotal
        = Dbl.fin ((min (n * k) (2 ^ 53) : ℕ) : ℚ) := by
    intro hfin
    have h := Concurrent.runningTotal_of_finished k _ hinv hfin
    rw [Concurrent.run_length] at h
    rw [Counter.getRunningTotal, h]
    simp [Concurrent.init]
  refine ⟨hmain, ?_, ?_⟩
  · intro hfin hle
    rw [hmain hfin, min_eq_left hle]
  · obtain ⟨ext, hext⟩ := Concurrent.exists_completion k _ _ hinv (le_refl _)
    exact ⟨ext, by rw [Concurrent.run_append]; exact hext⟩

set_option maxRecDepth 100000 in
/-- C11 (amended) at two threads making two calls each under `sampleSchedule`,
in which the threads move in turn: all four calls complete and the running
total is `4`. -/
theorem C11_lost_update_freedom_witness :
    Concurrent.finished 2 (Concurrent.run 2 (Dbl.fin 1) (Concurrent.init 2) sampleSchedule)
      = true
    ∧ 2 * 2 ≤ 2 ^ 53
    ∧ (Concurrent.run 2 (Dbl.fin 1) (Concurrent.init 2) sampleSchedule).counter.getRunningTotal
        = Dbl.fin ((2 * 2 : ℕ) : ℚ) :=
  ⟨by with_unfolding_all decide, by decide,
   (C11_lost_update_freedom 2 2 sampleSchedule).2.1 (by with_unfolding_all decide) (by decide)⟩
